import Mathlib

/-!
Shallow embedding of the client-side API request optimizer
(`src/frontend/src/lib/user.ts`, class `APIOptimizer`).

The class is single-threaded JavaScript: all mutation of its fields happens
synchronously between `await` points.  We model it as a state machine whose
events are the synchronous turns of the program:

* `Ev.dedup c key fid`    — a caller `c` invokes `deduplicate(key, fetcher)`;
  the turn runs up to the `await fetcher()` suspension (lines 94-119).
* `Ev.settle fid o`       — the fetcher started by a `deduplicate` call
  settles with outcome `o`; the turn resumes at line 119/122 and runs the
  `resolve`/`reject` and the `finally` block (lines 119-127).
* `Ev.batch c code uid`   — a caller invokes `batchLikeStatus(code, uid)`
  (lines 134-166).
* `Ev.flush resp`         — the armed batch timer fires and
  `processBatchedLikes` runs, the combined network call for batch number `i`
  returning `resp i` (lines 171-201).
* `Ev.queue c key p fid`  — a caller invokes `queueRequest(key, fetcher, p)`
  (lines 207-230), which calls `processQueue` (lines 235-256).
* `Ev.complete a o`       — the dispatched queued request with arrival
  number `a` settles with outcome `o`; its `.finally` handler runs
  (lines 248-252).
* `Ev.callPrefetch key fid` — a caller invokes `prefetch(key, fetcher, d)`
  (lines 261-269), scheduling a timer.
* `Ev.firePrefetch tid`   — that timer fires and the callback runs
  `await this.deduplicate(key, fetcher)` inside `try … catch {}`.
* `Ev.clearAll`           — `clear()` runs (lines 274-282).

Promises are modelled explicitly: each unsettled promise has an id and a
list of waiting callers; settling a promise delivers the outcome to its
waiters.  The `Date.now()` timestamps stored by the source are never read
by any code in scope, so they are omitted.
-/

namespace JavPreview

/-- Result of a like-status query: `{ liked: boolean; like_count: number }`. -/
structure LikeResult where
  liked : Bool
  like_count : Nat
deriving DecidableEq, Repr

/-- Values flowing through the optimizer: generic fetch results (abstracted
as naturals) or like-status records. -/
inductive Val
  | num (n : Nat)
  | like (r : LikeResult)
deriving DecidableEq, Repr

/-- Settled outcome of a promise: a resolved value or a rejection message. -/
inductive Outcome
  | ok (v : Val)
  | err (msg : String)
deriving DecidableEq, Repr

/-- Who awaits a result: a UI caller, or the prefetch timer callback number
`t`, whose `try { … } catch { /* Ignore prefetch errors */ }` swallows any
rejection (user.ts lines 262-268). -/
inductive Caller
  | ui (n : Nat)
  | sink (t : Nat)
deriving DecidableEq, Repr

/-- One entry of `likeBatchQueue` (user.ts lines 63-68).  The stored
`resolve` closure is the one built at lines 146-153 by the call that CREATED
the batch: it captures that call's `videoCode` (here `creatorCode`) and that
call's own promise (here `creator`).  Calls that join an existing batch only
push their code (line 141); their resolve/reject callbacks are dropped. -/
structure BatchRequest where
  codes : List String
  creator : Nat
  creatorCode : String
deriving DecidableEq, Repr

/-- One entry of `requestQueue` (user.ts lines 81-85) plus the bookkeeping
our embedding needs: the arrival sequence number (position of insertion,
used only by the metatheory), the fetcher id and the caller. -/
structure QueuedReq where
  arrival : Nat
  priority : Int
  key : String
  fid : Nat
  caller : Nat
deriving DecidableEq, Repr

/-- A fetcher started by `deduplicate` that has not yet settled.  `pid` is
the promise created at line 106 (settled by the captured `resolve!`/`reject!`
at lines 120/123), `owner` the caller whose turn invoked the fetcher. -/
structure InFlightFetch where
  fid : Nat
  key : String
  pid : Nat
  owner : Caller
deriving DecidableEq, Repr

/-- Response of one combined `/api/likes/batch` call: either the parsed
`data.results` list (code/result records) or a failure (a non-ok status or
network rejection, both reaching the `catch` at line 197). -/
inductive BatchResp
  | ok (results : List (String × LikeResult))
  | fail (msg : String)

/-- Association-list lookup, first match wins (JS `Map.get`). -/
def alookup {β : Type} : List (String × β) → String → Option β
  | [], _ => none
  | (k', v) :: rest, k => if k' = k then some v else alookup rest k

/-- Association-list removal of the first match (JS `Map.delete`; the map's
keys are unique by construction, see `dedupCall`). -/
def aerase {β : Type} : List (String × β) → String → List (String × β)
  | [], _ => []
  | (k', v) :: rest, k => if k' = k then rest else (k', v) :: aerase rest k

/-- Waiters of promise `pid` in the promise store. -/
def waitersIn : List (Nat × List Caller) → Nat → List Caller
  | [], _ => []
  | (p, ws) :: rest, pid => if p = pid then ws ++ waitersIn rest pid else waitersIn rest pid

/-- Add a waiter to promise `pid`. -/
def addWaiter : List (Nat × List Caller) → Nat → Caller → List (Nat × List Caller)
  | [], _, _ => []
  | (p, ws) :: rest, pid, c =>
      if p = pid then (p, ws ++ [c]) :: addWaiter rest pid c
      else (p, ws) :: addWaiter rest pid c

/-- Drop promise `pid` from the store (it has settled). -/
def removePid : List (Nat × List Caller) → Nat → List (Nat × List Caller)
  | [], _ => []
  | (p, ws) :: rest, pid =>
      if p = pid then removePid rest pid else (p, ws) :: removePid rest pid

/-- Apply `f` to the last element of a list (JS
`queue[queue.length - 1]` mutation at line 141). -/
def updateLast {α : Type} (f : α → α) : List α → List α
  | [] => []
  | [a] => [f a]
  | a :: b :: rest => a :: updateLast f (b :: rest)

/-- First-occurrence-preserving deduplication: `[...new Set(codes)]`
(line 182). -/
def setDedup (l : List String) : List String :=
  l.foldl (fun acc c => if c ∈ acc then acc else acc ++ [c]) []

/-- Lookup in a JS `Map` built with `new Map(entries)` (lines 192-194): for
duplicate keys the last entry wins, so we search the reversed list. -/
def jsMapGet (entries : List (String × LikeResult)) (k : String) : Option LikeResult :=
  alookup entries.reverse k

/-- The whole mutable state: the six fields of `APIOptimizer`
(user.ts lines 72-88) plus the explicit environment bookkeeping of the
embedding (promise store, in-flight fetchers, dispatched queue items,
prefetch timers, and observation logs). -/
structure OptState where
  pendingRequests : List (String × Nat)
  likeBatchQueue : List BatchRequest
  likeBatchTimer : Option String
  requestQueue : List QueuedReq
  isProcessingQueue : Bool
  activeRequests : Nat
  promises : List (Nat × List Caller)
  nextPid : Nat
  nextArrival : Nat
  nextTimerId : Nat
  inFlight : List InFlightFetch
  running : List QueuedReq
  prefetchTimers : List (Nat × String × Nat)
  fetchLog : List Nat
  requestsIssued : List (String × List String)
  delivered : List (Caller × Outcome)
  surfacedErrors : List (Caller × String)

/-- `MAX_BATCH_SIZE = 50` (user.ts line 78). -/
def MAX_BATCH_SIZE : Nat := 50

/-- `MAX_CONCURRENT = 6` (user.ts line 87). -/
def MAX_CONCURRENT : Nat := 6

/-- What a rejection surfaces: a UI caller sees the error; the prefetch
callback's `catch {}` swallows it (lines 265-267).  Resolutions surface no
error. -/
def surfacedAppend (c : Caller) (o : Outcome) : List (Caller × String) :=
  match c, o with
  | Caller.ui n, Outcome.err e => [(Caller.ui n, e)]
  | _, _ => []

/-- Deliver a settled outcome to one waiting caller. -/
def deliver (s : OptState) (c : Caller) (o : Outcome) : OptState :=
  { s with delivered := s.delivered ++ [(c, o)],
           surfacedErrors := s.surfacedErrors ++ surfacedAppend c o }

/-- Deliver an outcome to a list of waiters (left to right). -/
def deliverAll (s : OptState) (cs : List Caller) (o : Outcome) : OptState :=
  cs.foldl (fun s c => deliver s c o) s

/-- Settle promise `pid` with outcome `o`: every waiter receives `o` and the
promise leaves the store. -/
def settlePromise (s : OptState) (pid : Nat) (o : Outcome) : OptState :=
  let s' := deliverAll s (waitersIn s.promises pid) o
  { s' with promises := removePid s'.promises pid }

/-- Lines 94-119 of `deduplicate(key, fetcher)`: if a pending entry exists
the caller just awaits its promise (lines 96-100); otherwise a fresh promise
is created and stored (lines 102-116) and the fetcher is invoked
(line 119). -/
def dedupCall (s : OptState) (c : Caller) (key : String) (fid : Nat) : OptState :=
  match alookup s.pendingRequests key with
  | some pid => { s with promises := addWaiter s.promises pid c }
  | none =>
      { s with
        promises := s.promises ++ [(s.nextPid, [])],
        pendingRequests := s.pendingRequests ++ [(key, s.nextPid)],
        inFlight := s.inFlight ++ [⟨fid, key, s.nextPid, c⟩],
        fetchLog := s.fetchLog ++ [fid],
        nextPid := s.nextPid + 1 }

/-- Find the in-flight fetcher with id `fid`. -/
def findFetch : List InFlightFetch → Nat → Option InFlightFetch
  | [], _ => none
  | f :: rest, fid => if f.fid = fid then some f else findFetch rest fid

/-- Remove the in-flight fetcher with id `fid` (first match). -/
def removeFetch : List InFlightFetch → Nat → List InFlightFetch
  | [], _ => []
  | f :: rest, fid => if f.fid = fid then rest else f :: removeFetch rest fid

/-- Lines 119-127 of `deduplicate`: the fetcher settles with outcome `o`.
The captured `resolve!`/`reject!` settles the stored promise (so every
joined waiter gets `o`), the owner's own `await` returns/throws the same
outcome, and the `finally` block unconditionally deletes the key from
`pendingRequests`. -/
def dedupSettle (s : OptState) (fid : Nat) (o : Outcome) : OptState :=
  match findFetch s.inFlight fid with
  | none => s
  | some f =>
      let s₁ := { s with inFlight := removeFetch s.inFlight fid }
      let s₂ := settlePromise s₁ f.pid o
      let s₃ := deliver s₂ f.owner o
      { s₃ with pendingRequests := aerase s₃.pendingRequests f.key }

/-- Lines 137-157: how one `batchLikeStatus` call updates `likeBatchQueue`.
If the newest batch exists and has fewer than `MAX_BATCH_SIZE` codes, only
the code is pushed (line 141) — the joining caller's resolve/reject are
dropped.  Otherwise a new batch is created whose stored resolve closure
captures THIS call's code and promise `pid` (lines 144-156). -/
def pushCode (code : String) (pid : Nat) (q : List BatchRequest) : List BatchRequest :=
  match q.getLast? with
  | some b =>
      if b.codes.length < MAX_BATCH_SIZE then
        updateLast (fun b => { b with codes := b.codes ++ [code] }) q
      else q ++ [BatchRequest.mk [code] pid code]
  | none => q ++ [BatchRequest.mk [code] pid code]

/-- Lines 160-164: arm the flush timer if none is armed, capturing this
call's `userId`; an armed timer is left alone. -/
def armTimer (userId : String) (t : Option String) : Option String :=
  match t with
  | some _ => t
  | none => some userId

/-- Lines 134-166, `batchLikeStatus(videoCode, userId)`.  The executor of
the caller's new promise runs synchronously: it updates the batch queue
(`pushCode`) and arms the flush timer if needed (`armTimer`). -/
def batchCall (s : OptState) (c : Nat) (code : String) (userId : String) : OptState :=
  { s with promises := s.promises ++ [(s.nextPid, [Caller.ui c])],
           nextPid := s.nextPid + 1,
           likeBatchQueue := pushCode code s.nextPid s.likeBatchQueue,
           likeBatchTimer := armTimer userId s.likeBatchTimer }

/-- How the stored resolve/reject settles the batch creator's promise, given
the outcome of the combined request: on success the creator's closure looks
up ONLY `creatorCode` in the response map (lines 146-153) and resolves, or
rejects with the synthesized not-found error; on failure the creator's
promise is rejected with the error (lines 187-198). -/
def flushOutcome (b : BatchRequest) (r : BatchResp) : Outcome :=
  match r with
  | BatchResp.ok results =>
      match jsMapGet results b.creatorCode with
      | some res => Outcome.ok (Val.like res)
      | none => Outcome.err "Video not found in batch response"
  | BatchResp.fail e => Outcome.err e

/-- Lines 179-200: flush one batch.  One combined request is issued for the
deduplicated codes (lines 182-185), then the creator's stored promise is
settled with `flushOutcome`.  Joined callers are untouched: no other
callback was stored for them. -/
def flushBatch (s : OptState) (b : BatchRequest) (userId : String) (r : BatchResp) : OptState :=
  settlePromise
    { s with requestsIssued := s.requestsIssued ++ [(userId, setDedup b.codes)] }
    b.creator (flushOutcome b r)

/-- The `for (const batch of batches)` loop of lines 179-200: flush the
snapshotted batches in creation order, batch number `i` receiving response
`resp i`. -/
def flushAll (s : OptState) (bs : List BatchRequest) (userId : String)
    (resp : Nat → BatchResp) (i : Nat) : OptState :=
  match bs with
  | [] => s
  | b :: rest => flushAll (flushBatch s b userId (resp i)) rest userId resp (i + 1)

/-- Lines 171-201, `processBatchedLikes(userId)`: runs only if the timer is
still armed (otherwise `clearTimeout` removed the callback).  The timer
handle is nulled (line 172), the queue is snapshotted and emptied
(lines 176-177), and the batches are flushed in creation order
(lines 179-200). -/
def processBatchedLikes (s : OptState) (resp : Nat → BatchResp) : OptState :=
  match s.likeBatchTimer with
  | none => s
  | some userId =>
      let batches := s.likeBatchQueue
      flushAll { s with likeBatchTimer := none, likeBatchQueue := [] } batches userId resp 0

/-- The sort comparator at line 241, `(a, b) => b.priority - a.priority`:
`a` sorts no later than `b` iff `b.priority ≤ a.priority`. -/
def leP (a b : QueuedReq) : Bool := decide (b.priority ≤ a.priority)

/-- Stable insertion: `a` is placed after exactly the strictly
higher-priority elements, hence before the earlier-arrived elements of
equal priority that follow. -/
def insertLe (a : QueuedReq) : List QueuedReq → List QueuedReq
  | [] => [a]
  | y :: rest => if a.priority < y.priority then y :: insertLe a rest else a :: y :: rest

/-- The result of `this.requestQueue.sort((a, b) => b.priority - a.priority)`
at line 241.  ECMAScript pins the sorted array down uniquely: it is ordered
by the comparator (descending priority) and stable (elements comparing equal
keep their relative order).  Any stable sort computes that unique list; we
use insertion sort from the right, and prove the characterizing properties
(`jsSort_perm`, `jsSort_sorted`, `jsSort_stable`) below. -/
def jsSort (l : List QueuedReq) : List QueuedReq := l.foldr insertLe []

/-- Lines 239-253, the drain loop of `processQueue`: while the queue is
non-empty and fewer than `MAX_CONCURRENT` requests are active, sort by
priority (stable, descending), shift the head, and dispatch it (which
invokes its fetcher).  Each iteration removes exactly one element from the
queue, so running the loop with the queue length as fuel is the exact
while-loop: when the fuel hits zero the queue is already empty and the
loop guard is false anyway (`processQueueLoop_fuel_irrelevant` below). -/
def processQueueLoop : Nat → OptState → OptState
  | 0, s => s
  | fuel + 1, s =>
      if s.requestQueue = [] ∨ ¬ s.activeRequests < MAX_CONCURRENT then s
      else
        match jsSort s.requestQueue with
        | [] => s
        | r :: rest =>
            processQueueLoop fuel
              { s with requestQueue := rest,
                       activeRequests := s.activeRequests + 1,
                       running := s.running ++ [r],
                       fetchLog := s.fetchLog ++ [r.fid] }

/-- Lines 235-256, `processQueue`: the re-entrancy guard plus the drain
loop. -/
def processQueue (s : OptState) : OptState :=
  if s.isProcessingQueue then s
  else
    let s' := processQueueLoop s.requestQueue.length { s with isProcessingQueue := true }
    { s' with isProcessingQueue := false }

/-- Lines 207-230, `queueRequest(key, fetcher, priority)`: append the unit
of work and trigger the dispatcher. -/
def queueRequest (s : OptState) (c : Nat) (key : String) (priority : Int) (fid : Nat) :
    OptState :=
  processQueue
    { s with requestQueue := s.requestQueue ++ [⟨s.nextArrival, priority, key, fid, c⟩],
             nextArrival := s.nextArrival + 1 }

/-- Find the dispatched request with arrival number `a`. -/
def findRun : List QueuedReq → Nat → Option QueuedReq
  | [], _ => none
  | q :: rest, a => if q.arrival = a then some q else findRun rest a

/-- Remove the dispatched request with arrival number `a` (first match). -/
def removeRun : List QueuedReq → Nat → List QueuedReq
  | [], _ => []
  | q :: rest, a => if q.arrival = a then rest else q :: removeRun rest a

/-- Lines 214-222 and 248-252: a dispatched request settles.  Its `fn`
resolved/rejected the caller's promise with the fetch outcome, then the
`.finally` handler decrements the active count and re-runs the
dispatcher. -/
def completeRequest (s : OptState) (a : Nat) (o : Outcome) : OptState :=
  match findRun s.running a with
  | none => s
  | some q =>
      let s₁ := { s with running := removeRun s.running a,
                         activeRequests := s.activeRequests - 1 }
      processQueue (deliver s₁ (Caller.ui q.caller) o)

/-- Lines 261-269, `prefetch(key, fetcher, delay)`: schedule a timer; the
call itself returns immediately. -/
def prefetchCall (s : OptState) (key : String) (fid : Nat) : OptState :=
  { s with prefetchTimers := s.prefetchTimers ++ [(s.nextTimerId, key, fid)],
           nextTimerId := s.nextTimerId + 1 }

/-- Find the prefetch timer with id `tid`. -/
def findTimer : List (Nat × String × Nat) → Nat → Option (String × Nat)
  | [], _ => none
  | (t, k, f) :: rest, tid => if t = tid then some (k, f) else findTimer rest tid

/-- Remove the prefetch timer with id `tid` (first match). -/
def removeTimer : List (Nat × String × Nat) → Nat → List (Nat × String × Nat)
  | [], _ => []
  | (t, k, f) :: rest, tid => if t = tid then rest else (t, k, f) :: removeTimer rest tid

/-- Lines 262-268: the prefetch timer fires and the callback runs
`await this.deduplicate(key, fetcher)`, awaited by the swallowing `sink`
caller. -/
def prefetchFire (s : OptState) (tid : Nat) : OptState :=
  match findTimer s.prefetchTimers tid with
  | none => s
  | some (key, fid) =>
      dedupCall { s with prefetchTimers := removeTimer s.prefetchTimers tid }
        (Caller.sink tid) key fid

/-- Lines 274-282, `clear()`: empty the pending-request map, the batch
queue and the request queue, and cancel the armed flush timer.  No other
field is touched. -/
def clear (s : OptState) : OptState :=
  { s with pendingRequests := [], likeBatchQueue := [],
           likeBatchTimer := none, requestQueue := [] }

/-- Result record of `getStats()` (lines 287-294). -/
structure Stats where
  pendingRequests : Nat
  queuedRequests : Nat
  activeRequests : Nat
  batchedLikes : Nat
deriving DecidableEq, Repr

/-- Lines 287-294, `getStats()`. -/
def getStats (s : OptState) : Stats :=
  { pendingRequests := s.pendingRequests.length,
    queuedRequests := s.requestQueue.length,
    activeRequests := s.activeRequests,
    batchedLikes := s.likeBatchQueue.foldl (fun sum b => sum + b.codes.length) 0 }

/-- The events (synchronous turns) the environment can trigger. -/
inductive Ev
  | dedup (c : Nat) (key : String) (fid : Nat)
  | settle (fid : Nat) (o : Outcome)
  | batch (c : Nat) (code : String) (userId : String)
  | flush (resp : Nat → BatchResp)
  | queue (c : Nat) (key : String) (priority : Int) (fid : Nat)
  | complete (a : Nat) (o : Outcome)
  | callPrefetch (key : String) (fid : Nat)
  | firePrefetch (tid : Nat)
  | clearAll

/-- One synchronous turn. -/
def step (s : OptState) : Ev → OptState
  | Ev.dedup c key fid => dedupCall s (Caller.ui c) key fid
  | Ev.settle fid o => dedupSettle s fid o
  | Ev.batch c code userId => batchCall s c code userId
  | Ev.flush resp => processBatchedLikes s resp
  | Ev.queue c key priority fid => queueRequest s c key priority fid
  | Ev.complete a o => completeRequest s a o
  | Ev.callPrefetch key fid => prefetchCall s key fid
  | Ev.firePrefetch tid => prefetchFire s tid
  | Ev.clearAll => clear s

/-- The freshly constructed optimizer (all collections empty, counters 0). -/
def init : OptState :=
  { pendingRequests := [], likeBatchQueue := [], likeBatchTimer := none,
    requestQueue := [], isProcessingQueue := false, activeRequests := 0,
    promises := [], nextPid := 0, nextArrival := 0, nextTimerId := 0,
    inFlight := [], running := [], prefetchTimers := [], fetchLog := [],
    requestsIssued := [], delivered := [], surfacedErrors := [] }

/-- Run a sequence of events from a given state. -/
def runFrom (s : OptState) (evts : List Ev) : OptState := evts.foldl step s

/-- Run a sequence of events from the initial state. -/
def run (evts : List Ev) : OptState := runFrom init evts

/-- Outcomes delivered to caller `c`, in delivery order. -/
def deliveredIn (l : List (Caller × Outcome)) (c : Caller) : List Outcome :=
  match l with
  | [] => []
  | (c', o) :: rest => if c' = c then o :: deliveredIn rest c else deliveredIn rest c

/-- Outcomes delivered to caller `c` in state `s`. -/
def deliveredToC (s : OptState) (c : Caller) : List Outcome :=
  deliveredIn s.delivered c

/-- Surfaced rejections produced by delivering `o` to each caller in `cs`. -/
def surfacedList (cs : List Caller) (o : Outcome) : List (Caller × String) :=
  match cs with
  | [] => []
  | c :: rest => surfacedAppend c o ++ surfacedList rest o

/-- Tie-break order: among equal priorities, earlier arrival first. -/
def tieLT (a b : QueuedReq) : Prop := a.priority = b.priority → a.arrival < b.arrival

/-- Waiters of a promise id in a state. -/
def waitersOf (s : OptState) (pid : Nat) : List Caller := waitersIn s.promises pid

/-- A caller some future turn could still deliver an outcome to: the owner
or a waiter of an in-flight deduplicated fetch, a waiter of a batch group's
creator promise, the caller of a dispatched queue item, or the caller of a
still-queued item. -/
def Deliverable (s : OptState) (c : Caller) : Prop :=
  (∃ f ∈ s.inFlight, c = f.owner ∨ c ∈ waitersOf s f.pid)
  ∨ (∃ b ∈ s.likeBatchQueue, c ∈ waitersOf s b.creator)
  ∨ (∃ q ∈ s.running, c = Caller.ui q.caller)
  ∨ (∃ q ∈ s.requestQueue, c = Caller.ui q.caller)

/-- Callers whose batch group or queued item a `clear()` in state `s` would
discard. -/
def DiscardedBy (s : OptState) (c : Caller) : Prop :=
  (∃ b ∈ s.likeBatchQueue, c ∈ waitersOf s b.creator)
  ∨ (∃ q ∈ s.requestQueue, c = Caller.ui q.caller)

/-- The caller identities an event introduces.  A real caller awaits each
of its calls exactly once, so the identity of a discarded caller does not
reappear in later events. -/
def evCallers : Ev → List Caller
  | Ev.dedup c _ _ => [Caller.ui c]
  | Ev.batch c _ _ => [Caller.ui c]
  | Ev.queue c _ _ _ => [Caller.ui c]
  | Ev.firePrefetch tid => [Caller.sink tid]
  | _ => []

/-- The joining calls of the deduplication scenario: callers `1..n` call
`deduplicate` for the same key while the first call's fetch is in flight. -/
def joinCalls (key : String) (fid : Nat) : Nat → List Ev
  | 0 => []
  | n + 1 => joinCalls key fid n ++ [Ev.dedup (n + 1) key fid]

/-- `n + 1` concurrent `deduplicate` calls for one key (callers `0..n`),
after which the single underlying fetch settles with outcome `o`. -/
def dedupScenario (key : String) (fid : Nat) (n : Nat) (o : Outcome) : List Ev :=
  Ev.dedup 0 key fid :: (joinCalls key fid n ++ [Ev.settle fid o])

/-- Callers `1..n`, the waiters joined to the first caller's promise. -/
def uiRange : Nat → List Caller
  | 0 => []
  | n + 1 => uiRange n ++ [Caller.ui (n + 1)]

/-- The state after the first `deduplicate` call and `n` joining calls of
`dedupScenario`. -/
def dedupMid (key : String) (fid : Nat) (n : Nat) : OptState :=
  { init with
    pendingRequests := [(key, 0)],
    promises := [(0, uiRange n)],
    nextPid := 1,
    inFlight := [⟨fid, key, 0, Caller.ui 0⟩],
    fetchLog := [fid] }

/-- Three `batchLikeStatus` calls for items A, B, C within one flush
window. -/
def batchTraceABC : List Ev :=
  [Ev.batch 0 "A" "u", Ev.batch 1 "B" "u", Ev.batch 2 "C" "u"]

/-- A combined response containing a result for each of A, B and C. -/
def respABC : Nat → BatchResp := fun _ =>
  BatchResp.ok [("A", ⟨true, 3⟩), ("B", ⟨false, 1⟩), ("C", ⟨true, 2⟩)]

/-- A combined response that contains a result only for item B. -/
def respOnlyB : Nat → BatchResp := fun _ => BatchResp.ok [("B", ⟨true, 1⟩)]

/-- 51 `batchLikeStatus` calls in rapid succession (callers `0..50`, with
distinct item codes). -/
def trace51 : List Ev := (List.range 51).map (fun i => Ev.batch i (toString i) "u")

/-- Seven queued units of work: six fill the concurrency slots immediately;
the seventh (queued last, with strictly higher priority) stays pending. -/
def trace7 : List Ev :=
  [Ev.queue 0 "a" 0 10, Ev.queue 1 "b" 0 11, Ev.queue 2 "c" 0 12, Ev.queue 3 "d" 0 13,
   Ev.queue 4 "e" 0 14, Ev.queue 5 "f" 0 15, Ev.queue 6 "g" 5 16]

/-- The reachable-state invariant of the optimizer: unique pending-request
keys, bounded batch groups, a tie-ordered request queue with arrivals below
the arrival counter, an active count equal to the number of dispatched
requests and bounded by `MAX_CONCURRENT`, a released re-entrancy flag, and
promise ids below the promise counter. -/
def Inv (s : OptState) : Prop :=
  (s.pendingRequests.map Prod.fst).Nodup
  ∧ (∀ b ∈ s.likeBatchQueue, b.codes.length ≤ MAX_BATCH_SIZE)
  ∧ s.requestQueue.Pairwise tieLT
  ∧ (∀ q ∈ s.requestQueue, q.arrival < s.nextArrival)
  ∧ s.activeRequests = s.running.length
  ∧ s.activeRequests ≤ MAX_CONCURRENT
  ∧ s.isProcessingQueue = false
  ∧ (∀ p ∈ s.promises, p.1 < s.nextPid)

/-! ### Helper lemmas about the list-level operations -/

theorem deliveredIn_append (l₁ l₂ : List (Caller × Outcome)) (c : Caller) :
    deliveredIn (l₁ ++ l₂) c = deliveredIn l₁ c ++ deliveredIn l₂ c := by
  induction l₁ with
  | nil => rfl
  | cons p rest ih =>
    obtain ⟨c', o⟩ := p
    simp only [List.cons_append, deliveredIn]
    split <;> simp [ih]

theorem deliveredIn_map_const (cs : List Caller) (o : Outcome) (c : Caller) :
    deliveredIn (cs.map (fun x => (x, o))) c = List.replicate (cs.count c) o := by
  induction cs with
  | nil => rfl
  | cons x rest ih =>
    simp only [List.map_cons, deliveredIn, List.count_cons]
    by_cases hx : x = c
    · subst hx
      simp [ih, List.replicate_succ]
    · simp [hx, Ne.symm hx, ih]

theorem waitersIn_append (ps qs : List (Nat × List Caller)) (pid : Nat) :
    waitersIn (ps ++ qs) pid = waitersIn ps pid ++ waitersIn qs pid := by
  induction ps with
  | nil => rfl
  | cons p rest ih =>
    obtain ⟨p₁, ws⟩ := p
    simp only [List.cons_append, waitersIn]
    split <;> simp [ih]

theorem mem_waitersIn_addWaiter {ps : List (Nat × List Caller)} {pid' pid : Nat}
    {c₀ c : Caller} (h : c ∈ waitersIn (addWaiter ps pid' c₀) pid) :
    c ∈ waitersIn ps pid ∨ c = c₀ := by
  induction ps with
  | nil => exact absurd h (List.not_mem_nil c)
  | cons p rest ih =>
    obtain ⟨p₁, ws⟩ := p
    simp only [addWaiter] at h
    split at h
    · simp only [waitersIn] at h ⊢
      split at h
      · rename_i h₂
        rw [if_pos h₂]
        simp only [List.mem_append, List.mem_singleton] at h ⊢
        rcases h with (h | h) | h
        · exact Or.inl (Or.inl h)
        · exact Or.inr h
        · rcases ih h with h | h
          · exact Or.inl (Or.inr h)
          · exact Or.inr h
      · rename_i h₂
        rw [if_neg h₂]
        exact ih h
    · simp only [waitersIn] at h ⊢
      split at h
      · rename_i h₂
        rw [if_pos h₂]
        simp only [List.mem_append] at h ⊢
        rcases h with h | h
        · exact Or.inl (Or.inl h)
        · rcases ih h with h | h
          · exact Or.inl (Or.inr h)
          · exact Or.inr h
      · rename_i h₂
        rw [if_neg h₂]
        exact ih h

theorem mem_waitersIn_removePid {ps : List (Nat × List Caller)} {pid' pid : Nat}
    {c : Caller} (h : c ∈ waitersIn (removePid ps pid') pid) :
    c ∈ waitersIn ps pid := by
  induction ps with
  | nil => exact absurd h (List.not_mem_nil c)
  | cons p rest ih =>
    obtain ⟨p₁, ws⟩ := p
    simp only [removePid] at h
    split at h
    · simp only [waitersIn]
      split
      · exact List.mem_append_right _ (ih h)
      · exact ih h
    · simp only [waitersIn] at h ⊢
      split at h
      · rename_i h₂
        rw [if_pos h₂]
        simp only [List.mem_append] at h ⊢
        rcases h with h | h
        · exact Or.inl h
        · exact Or.inr (ih h)
      · rename_i h₂
        rw [if_neg h₂]
        exact ih h

theorem waitersIn_eq_nil_of_fresh {ps : List (Nat × List Caller)} {pid : Nat}
    (h : ∀ p ∈ ps, p.1 ≠ pid) : waitersIn ps pid = [] := by
  induction ps with
  | nil => rfl
  | cons p rest ih =>
    obtain ⟨p₁, ws⟩ := p
    have h₁ : p₁ ≠ pid := h (p₁, ws) (List.mem_cons_self _ _)
    simp only [waitersIn, h₁, if_false]
    exact ih fun q hq => h q (List.mem_cons_of_mem _ hq)

theorem addWaiter_keys (ps : List (Nat × List Caller)) (pid : Nat) (c : Caller) :
    (addWaiter ps pid c).map Prod.fst = ps.map Prod.fst := by
  induction ps with
  | nil => rfl
  | cons p rest ih =>
    obtain ⟨p₁, ws⟩ := p
    simp only [addWaiter]
    split <;> simp [ih]

theorem mem_removePid {ps : List (Nat × List Caller)} {pid : Nat}
    {p : Nat × List Caller} (h : p ∈ removePid ps pid) : p ∈ ps := by
  induction ps with
  | nil => exact absurd h (List.not_mem_nil p)
  | cons q rest ih =>
    obtain ⟨q₁, ws⟩ := q
    simp only [removePid] at h
    split at h
    · exact List.mem_cons_of_mem _ (ih h)
    · rcases List.mem_cons.mp h with h | h
      · exact h ▸ List.mem_cons_self _ _
      · exact List.mem_cons_of_mem _ (ih h)

theorem alookup_eq_none_iff {β : Type} {m : List (String × β)} {k : String} :
    alookup m k = none ↔ ∀ p ∈ m, p.1 ≠ k := by
  induction m with
  | nil => simp [alookup]
  | cons p rest ih =>
    obtain ⟨k', v⟩ := p
    simp only [alookup]
    by_cases h : k' = k
    · simp [h]
    · simp [h, ih]

theorem aerase_sublist {β : Type} (m : List (String × β)) (k : String) :
    List.Sublist (aerase m k) m := by
  induction m with
  | nil => simp [aerase]
  | cons p rest ih =>
    obtain ⟨k', v⟩ := p
    simp only [aerase]
    split
    · exact (List.sublist_cons_self _ _)
    · exact ih.cons₂ _

theorem alookup_aerase_self {β : Type} {m : List (String × β)} {k : String}
    (h : (m.map Prod.fst).Nodup) : alookup (aerase m k) k = none := by
  induction m with
  | nil => rfl
  | cons p rest ih =>
    obtain ⟨k', v⟩ := p
    simp only [List.map_cons, List.nodup_cons] at h
    simp only [aerase]
    by_cases hk : k' = k
    · subst hk
      simp only [if_pos rfl]
      exact alookup_eq_none_iff.mpr fun q hq hq1 =>
        h.1 (by rw [← hq1]; exact List.mem_map_of_mem Prod.fst hq)
    · rw [if_neg hk]
      simp only [alookup, if_neg hk]
      exact ih h.2

theorem updateLast_eq {α : Type} (f : α → α) :
    ∀ (l : List α) (hl : l ≠ []), updateLast f l = l.dropLast ++ [f (l.getLast hl)]
  | [], hl => absurd rfl hl
  | [a], _ => rfl
  | a :: b :: rest, _ => by
    have ih := updateLast_eq f (b :: rest) (List.cons_ne_nil b rest)
    simp only [updateLast, ih, List.dropLast_cons₂, List.cons_append,
      List.getLast_cons (List.cons_ne_nil b rest)]

theorem updateLast_creator (code : String) (l : List BatchRequest) :
    (updateLast (fun b => { b with codes := b.codes ++ [code] }) l).map BatchRequest.creator
      = l.map BatchRequest.creator := by
  induction l with
  | nil => rfl
  | cons a rest ih =>
    cases rest with
    | nil => rfl
    | cons b rest' => simp only [updateLast, List.map_cons] at ih ⊢; rw [ih]

/-! ### The stable sort used by the dispatcher -/

theorem insertLe_length (a : QueuedReq) (l : List QueuedReq) :
    (insertLe a l).length = l.length + 1 := by
  induction l with
  | nil => rfl
  | cons y rest ih => simp only [insertLe]; split <;> simp [ih]

theorem jsSort_length (l : List QueuedReq) : (jsSort l).length = l.length := by
  induction l with
  | nil => rfl
  | cons a rest ih =>
    show (insertLe a (jsSort rest)).length = rest.length + 1
    rw [insertLe_length, ih]

theorem mem_insertLe {a x : QueuedReq} {l : List QueuedReq} :
    x ∈ insertLe a l ↔ x = a ∨ x ∈ l := by
  induction l with
  | nil => simp [insertLe]
  | cons y rest ih =>
    simp only [insertLe]
    split
    · simp only [List.mem_cons, ih]
      tauto
    · simp only [List.mem_cons]

theorem mem_jsSort {x : QueuedReq} {l : List QueuedReq} : x ∈ jsSort l ↔ x ∈ l := by
  induction l with
  | nil => simp [jsSort]
  | cons a rest ih =>
    show x ∈ insertLe a (jsSort rest) ↔ _
    rw [mem_insertLe, ih]
    simp

theorem insertLe_perm (a : QueuedReq) (l : List QueuedReq) :
    List.Perm (insertLe a l) (a :: l) := by
  induction l with
  | nil => rfl
  | cons y rest ih =>
    simp only [insertLe]
    split
    · exact (ih.cons y).trans (List.Perm.swap a y rest)
    · rfl

theorem jsSort_perm (l : List QueuedReq) : List.Perm (jsSort l) l := by
  induction l with
  | nil => rfl
  | cons a rest ih => exact (insertLe_perm a (jsSort rest)).trans (ih.cons a)

theorem insertLe_sorted {a : QueuedReq} {l : List QueuedReq}
    (h : l.Pairwise (fun x y => y.priority ≤ x.priority)) :
    (insertLe a l).Pairwise (fun x y => y.priority ≤ x.priority) := by
  induction l with
  | nil => simp [insertLe]
  | cons y rest ih =>
    simp only [List.pairwise_cons] at h
    simp only [insertLe]
    split
    · rename_i hlt
      refine List.Pairwise.cons ?_ (ih h.2)
      intro z hz
      rcases mem_insertLe.mp hz with hz | hz
      · exact hz ▸ le_of_lt hlt
      · exact h.1 z hz
    · rename_i hge
      push_neg at hge
      refine List.Pairwise.cons ?_ (List.Pairwise.cons h.1 h.2)
      intro z hz
      rcases List.mem_cons.mp hz with hz | hz
      · exact hz ▸ hge
      · exact le_trans (h.1 z hz) hge

theorem jsSort_sorted (l : List QueuedReq) :
    (jsSort l).Pairwise (fun x y => y.priority ≤ x.priority) := by
  induction l with
  | nil => simp [jsSort]
  | cons a rest ih => exact insertLe_sorted ih

theorem filter_insertLe (a : QueuedReq) (l : List QueuedReq) (p : Int) :
    (insertLe a l).filter (fun q => decide (q.priority = p))
      = (if a.priority = p then [a] else [])
        ++ l.filter (fun q => decide (q.priority = p)) := by
  induction l with
  | nil => by_cases ha : a.priority = p <;> simp [insertLe, ha]
  | cons y rest ih =>
    simp only [insertLe]
    split
    · rename_i hlt
      by_cases hy : y.priority = p
      · have ha : ¬ a.priority = p := fun hc => absurd (hc.trans hy.symm) (ne_of_lt hlt)
        simp [List.filter_cons, hy, ha, ih]
      · simp [List.filter_cons, hy, ih]
    · by_cases ha : a.priority = p <;> by_cases hy : y.priority = p <;>
        simp [List.filter_cons, ha, hy]

theorem jsSort_stable (l : List QueuedReq) (p : Int) :
    (jsSort l).filter (fun q => decide (q.priority = p))
      = l.filter (fun q => decide (q.priority = p)) := by
  induction l with
  | nil => rfl
  | cons a rest ih =>
    show (insertLe a (jsSort rest)).filter _ = _
    rw [filter_insertLe, ih, List.filter_cons]
    by_cases ha : a.priority = p <;> simp [ha]

theorem insertLe_pairwise_tie {a : QueuedReq} {l : List QueuedReq}
    (h : l.Pairwise tieLT) (ha : ∀ y ∈ l, tieLT a y) :
    (insertLe a l).Pairwise tieLT := by
  induction l with
  | nil => simp [insertLe, List.pairwise_cons]
  | cons y rest ih =>
    simp only [List.pairwise_cons] at h
    simp only [insertLe]
    split
    · rename_i hlt
      refine List.Pairwise.cons ?_
        (ih h.2 (fun z hz => ha z (List.mem_cons_of_mem _ hz)))
      intro z hz heq
      rcases mem_insertLe.mp hz with hz | hz
      · subst hz
        exact absurd heq.symm (ne_of_lt hlt)
      · exact h.1 z hz heq
    · refine List.Pairwise.cons ?_ (List.Pairwise.cons h.1 h.2)
      intro z hz
      rcases List.mem_cons.mp hz with hz | hz
      · exact hz ▸ ha y (List.mem_cons_self _ _)
      · exact ha z (List.mem_cons_of_mem _ hz)

theorem jsSort_pairwise_tie {l : List QueuedReq} (h : l.Pairwise tieLT) :
    (jsSort l).Pairwise tieLT := by
  induction l with
  | nil => simp [jsSort]
  | cons a rest ih =>
    simp only [List.pairwise_cons] at h
    exact insertLe_pairwise_tie (ih h.2) (fun y hy => h.1 y (mem_jsSort.mp hy))

theorem jsSort_head_opt {l rest : List QueuedReq} {d : QueuedReq}
    (h : l.Pairwise tieLT) (he : jsSort l = d :: rest) :
    ∀ x ∈ l, x.priority ≤ d.priority
      ∧ (x.priority = d.priority → d.arrival ≤ x.arrival) := by
  intro x hx
  have hxs : x ∈ d :: rest := he ▸ mem_jsSort.mpr hx
  have hsorted := he ▸ jsSort_sorted l
  have htie := he ▸ jsSort_pairwise_tie h
  simp only [List.pairwise_cons] at hsorted htie
  rcases List.mem_cons.mp hxs with hx' | hx'
  · subst hx'
    exact ⟨le_refl _, fun _ => le_refl _⟩
  · refine ⟨hsorted.1 x hx', fun heq => ?_⟩
    exact le_of_lt (htie.1 x hx' heq.symm)

/-! ### State-level lemmas about the operations -/

theorem deliverAll_eq (s : OptState) (cs : List Caller) (o : Outcome) :
    deliverAll s cs o
      = { s with delivered := s.delivered ++ cs.map (fun c => (c, o)),
                 surfacedErrors := s.surfacedErrors ++ surfacedList cs o } := by
  induction cs generalizing s with
  | nil => simp [deliverAll, surfacedList]
  | cons c rest ih =>
    show deliverAll (deliver s c o) rest o = _
    rw [ih]
    simp [deliver, surfacedList]

theorem settlePromise_eq (s : OptState) (pid : Nat) (o : Outcome) :
    settlePromise s pid o
      = { s with
          delivered := s.delivered ++ (waitersIn s.promises pid).map (fun c => (c, o)),
          surfacedErrors := s.surfacedErrors ++ surfacedList (waitersIn s.promises pid) o,
          promises := removePid s.promises pid } := by
  simp [settlePromise, deliverAll_eq]

theorem flushBatch_eq (s : OptState) (b : BatchRequest) (u : String) (r : BatchResp) :
    flushBatch s b u r
      = { s with
          requestsIssued := s.requestsIssued ++ [(u, setDedup b.codes)],
          delivered := s.delivered
            ++ (waitersIn s.promises b.creator).map (fun c => (c, flushOutcome b r)),
          surfacedErrors := s.surfacedErrors
            ++ surfacedList (waitersIn s.promises b.creator) (flushOutcome b r),
          promises := removePid s.promises b.creator } := by
  simp [flushBatch, settlePromise_eq]

theorem flushAll_requestsIssued (bs : List BatchRequest) (s : OptState) (u : String)
    (resp : Nat → BatchResp) (i : Nat) :
    (flushAll s bs u resp i).requestsIssued
      = s.requestsIssued ++ bs.map (fun b => (u, setDedup b.codes)) := by
  induction bs generalizing s i with
  | nil => simp [flushAll]
  | cons b rest ih =>
    show (flushAll (flushBatch s b u (resp i)) rest u resp (i + 1)).requestsIssued = _
    rw [ih, flushBatch_eq]
    simp

theorem flushAll_unchanged (bs : List BatchRequest) (s : OptState) (u : String)
    (resp : Nat → BatchResp) (i : Nat) :
    (flushAll s bs u resp i).pendingRequests = s.pendingRequests
    ∧ (flushAll s bs u resp i).likeBatchQueue = s.likeBatchQueue
    ∧ (flushAll s bs u resp i).likeBatchTimer = s.likeBatchTimer
    ∧ (flushAll s bs u resp i).requestQueue = s.requestQueue
    ∧ (flushAll s bs u resp i).isProcessingQueue = s.isProcessingQueue
    ∧ (flushAll s bs u resp i).activeRequests = s.activeRequests
    ∧ (flushAll s bs u resp i).nextPid = s.nextPid
    ∧ (flushAll s bs u resp i).nextArrival = s.nextArrival
    ∧ (flushAll s bs u resp i).nextTimerId = s.nextTimerId
    ∧ (flushAll s bs u resp i).inFlight = s.inFlight
    ∧ (flushAll s bs u resp i).running = s.running
    ∧ (flushAll s bs u resp i).prefetchTimers = s.prefetchTimers
    ∧ (flushAll s bs u resp i).fetchLog = s.fetchLog := by
  induction bs generalizing s i with
  | nil => simp [flushAll]
  | cons b rest ih =>
    have h := ih (flushBatch s b u (resp i)) (i + 1)
    rw [flushBatch_eq] at h
    simp only [flushAll]
    rw [flushBatch_eq]
    simpa using h

theorem mem_promises_flushAll {bs : List BatchRequest} {s : OptState} {u : String}
    {resp : Nat → BatchResp} {i : Nat} {p : Nat × List Caller}
    (h : p ∈ (flushAll s bs u resp i).promises) : p ∈ s.promises := by
  induction bs generalizing s i with
  | nil => exact h
  | cons b rest ih =>
    have h' := ih h
    rw [flushBatch_eq] at h'
    exact mem_removePid h'

theorem mem_waitersIn_flushAll {bs : List BatchRequest} {s : OptState} {u : String}
    {resp : Nat → BatchResp} {i : Nat} {c : Caller} {pid : Nat}
    (h : c ∈ waitersIn (flushAll s bs u resp i).promises pid) :
    c ∈ waitersIn s.promises pid := by
  induction bs generalizing s i with
  | nil => exact h
  | cons b rest ih =>
    have h' := ih h
    rw [flushBatch_eq] at h'
    exact mem_waitersIn_removePid h'

theorem processQueueLoop_fuel_irrelevant :
    ∀ (f₁ f₂ : Nat) (s : OptState), s.requestQueue.length ≤ f₁ →
      s.requestQueue.length ≤ f₂ → processQueueLoop f₁ s = processQueueLoop f₂ s := by
  intro f₁
  induction f₁ with
  | zero =>
    intro f₂ s h₁ _
    have hq : s.requestQueue = [] := List.length_eq_zero.mp (Nat.le_zero.mp h₁)
    cases f₂ with
    | zero => rfl
    | succ m => simp [processQueueLoop, hq]
  | succ n ih =>
    intro f₂ s h₁ h₂
    cases f₂ with
    | zero =>
      have hq : s.requestQueue = [] := List.length_eq_zero.mp (Nat.le_zero.mp h₂)
      simp [processQueueLoop, hq]
    | succ m =>
      simp only [processQueueLoop]
      by_cases hguard : s.requestQueue = [] ∨ ¬ s.activeRequests < MAX_CONCURRENT
      · rw [if_pos hguard, if_pos hguard]
      · rw [if_neg hguard, if_neg hguard]
        cases hs : jsSort s.requestQueue with
        | nil => rfl
        | cons r rest =>
          have hlen : rest.length + 1 = s.requestQueue.length := by
            have := jsSort_length s.requestQueue
            rw [hs] at this
            simpa using this
          exact ih m _ (by simp; omega) (by simp; omega)

theorem processQueueLoop_spec :
    ∀ (fuel : Nat) (s : OptState),
      (processQueueLoop fuel s).pendingRequests = s.pendingRequests
      ∧ (processQueueLoop fuel s).likeBatchQueue = s.likeBatchQueue
      ∧ (processQueueLoop fuel s).likeBatchTimer = s.likeBatchTimer
      ∧ (processQueueLoop fuel s).promises = s.promises
      ∧ (processQueueLoop fuel s).inFlight = s.inFlight
      ∧ (processQueueLoop fuel s).delivered = s.delivered
      ∧ (processQueueLoop fuel s).surfacedErrors = s.surfacedErrors
      ∧ (processQueueLoop fuel s).requestsIssued = s.requestsIssued
      ∧ (processQueueLoop fuel s).prefetchTimers = s.prefetchTimers
      ∧ (processQueueLoop fuel s).nextPid = s.nextPid
      ∧ (processQueueLoop fuel s).nextArrival = s.nextArrival
      ∧ (processQueueLoop fuel s).nextTimerId = s.nextTimerId
      ∧ (processQueueLoop fuel s).isProcessingQueue = s.isProcessingQueue
      ∧ (∀ q ∈ (processQueueLoop fuel s).requestQueue, q ∈ s.requestQueue)
      ∧ (∃ t, (processQueueLoop fuel s).running = s.running ++ t
           ∧ (∀ q ∈ t, q ∈ s.requestQueue)
           ∧ (processQueueLoop fuel s).activeRequests = s.activeRequests + t.length)
      ∧ (s.activeRequests ≤ MAX_CONCURRENT
           → (processQueueLoop fuel s).activeRequests ≤ MAX_CONCURRENT)
      ∧ (s.requestQueue.Pairwise tieLT
           → (processQueueLoop fuel s).requestQueue.Pairwise tieLT) := by
  intro fuel
  induction fuel with
  | zero =>
    intro s
    refine ⟨rfl, rfl, rfl, rfl, rfl, rfl, rfl, rfl, rfl, rfl, rfl, rfl, rfl,
      fun q hq => hq, ⟨[], by simp [processQueueLoop], by simp, by simp [processQueueLoop]⟩,
      fun h => h, fun h => h⟩
  | succ n ih =>
    intro s
    simp only [processQueueLoop]
    by_cases hguard : s.requestQueue = [] ∨ ¬ s.activeRequests < MAX_CONCURRENT
    · rw [if_pos hguard]
      refine ⟨rfl, rfl, rfl, rfl, rfl, rfl, rfl, rfl, rfl, rfl, rfl, rfl, rfl,
        fun q hq => hq, ⟨[], by simp, by simp, by simp⟩, fun h => h, fun h => h⟩
    · rw [if_neg hguard]
      push_neg at hguard
      cases hs : jsSort s.requestQueue with
      | nil =>
        refine ⟨rfl, rfl, rfl, rfl, rfl, rfl, rfl, rfl, rfl, rfl, rfl, rfl, rfl,
          fun q hq => hq, ⟨[], by simp, by simp, by simp⟩, fun h => h, fun h => h⟩
      | cons r rest =>
        have hrmem : r ∈ s.requestQueue := mem_jsSort.mp (hs ▸ List.mem_cons_self r rest)
        have hrest : ∀ q ∈ rest, q ∈ s.requestQueue := fun q hq =>
          mem_jsSort.mp (hs ▸ List.mem_cons_of_mem r hq)
        obtain ⟨h1, h2, h3, h4, h5, h6, h7, h8, h9, h10, h11, h12, h13, hqm, ⟨t, ht1, ht2, ht3⟩,
          hcap, htie⟩ := ih
            { s with requestQueue := rest,
                     activeRequests := s.activeRequests + 1,
                     running := s.running ++ [r],
                     fetchLog := s.fetchLog ++ [r.fid] }
        refine ⟨h1, h2, h3, h4, h5, h6, h7, h8, h9, h10, h11, h12, h13,
          fun q hq => hrest q (hqm q hq), ⟨r :: t, ?_, ?_, ?_⟩, ?_, ?_⟩
        · rw [ht1]
          simp
        · intro q hq
          rcases List.mem_cons.mp hq with hq | hq
          · exact hq ▸ hrmem
          · exact hrest q (ht2 q hq)
        · rw [ht3]
          simp
          omega
        · intro _
          exact hcap (by simp; omega)
        · intro hp
          apply htie
          have := jsSort_pairwise_tie hp
          rw [hs] at this
          exact (List.pairwise_cons.mp this).2

theorem processQueue_spec (s : OptState) (hflag : s.isProcessingQueue = false) :
    (processQueue s).pendingRequests = s.pendingRequests
    ∧ (processQueue s).likeBatchQueue = s.likeBatchQueue
    ∧ (processQueue s).likeBatchTimer = s.likeBatchTimer
    ∧ (processQueue s).promises = s.promises
    ∧ (processQueue s).inFlight = s.inFlight
    ∧ (processQueue s).delivered = s.delivered
    ∧ (processQueue s).surfacedErrors = s.surfacedErrors
    ∧ (processQueue s).requestsIssued = s.requestsIssued
    ∧ (processQueue s).prefetchTimers = s.prefetchTimers
    ∧ (processQueue s).nextPid = s.nextPid
    ∧ (processQueue s).nextArrival = s.nextArrival
    ∧ (processQueue s).nextTimerId = s.nextTimerId
    ∧ (processQueue s).isProcessingQueue = false
    ∧ (∀ q ∈ (processQueue s).requestQueue, q ∈ s.requestQueue)
    ∧ (∃ t, (processQueue s).running = s.running ++ t
         ∧ (∀ q ∈ t, q ∈ s.requestQueue)
         ∧ (processQueue s).activeRequests = s.activeRequests + t.length)
    ∧ (s.activeRequests ≤ MAX_CONCURRENT
         → (processQueue s).activeRequests ≤ MAX_CONCURRENT)
    ∧ (s.requestQueue.Pairwise tieLT
         → (processQueue s).requestQueue.Pairwise tieLT) := by
  have hpq : processQueue s
      = { processQueueLoop s.requestQueue.length { s with isProcessingQueue := true }
          with isProcessingQueue := false } := by
    simp [processQueue, hflag]
  obtain ⟨h1, h2, h3, h4, h5, h6, h7, h8, h9, h10, h11, h12, h13, hqm, ⟨t, ht1, ht2, ht3⟩,
    hcap, htie⟩ :=
      processQueueLoop_spec s.requestQueue.length { s with isProcessingQueue := true }
  rw [hpq]
  exact ⟨h1, h2, h3, h4, h5, h6, h7, h8, h9, h10, h11, h12, rfl,
    hqm, ⟨t, ht1, ht2, ht3⟩, hcap, htie⟩

theorem findRun_mem {l : List QueuedReq} {a : Nat} {q : QueuedReq}
    (h : findRun l a = some q) : q ∈ l := by
  induction l with
  | nil => exact absurd h (by simp [findRun])
  | cons x rest ih =>
    simp only [findRun] at h
    split at h
    · exact (Option.some.injEq _ _ ▸ h) ▸ List.mem_cons_self x rest
    · exact List.mem_cons_of_mem x (ih h)

theorem removeRun_length {l : List QueuedReq} {a : Nat} {q : QueuedReq}
    (h : findRun l a = some q) : (removeRun l a).length + 1 = l.length := by
  induction l with
  | nil => exact absurd h (by simp [findRun])
  | cons x rest ih =>
    simp only [findRun] at h
    simp only [removeRun]
    split at h <;> rename_i hx
    · rw [if_pos hx]
      simp
    · rw [if_neg hx]
      simp only [List.length_cons]
      rw [← ih h]

theorem mem_removeRun {l : List QueuedReq} {a : Nat} {q : QueuedReq}
    (h : q ∈ removeRun l a) : q ∈ l := by
  induction l with
  | nil => exact absurd h (List.not_mem_nil q)
  | cons x rest ih =>
    simp only [removeRun] at h
    split at h
    · exact List.mem_cons_of_mem x h
    · rcases List.mem_cons.mp h with h | h
      · exact h ▸ List.mem_cons_self x rest
      · exact List.mem_cons_of_mem x (ih h)

theorem findFetch_mem {l : List InFlightFetch} {fid : Nat} {f : InFlightFetch}
    (h : findFetch l fid = some f) : f ∈ l := by
  induction l with
  | nil => exact absurd h (by simp [findFetch])
  | cons x rest ih =>
    simp only [findFetch] at h
    split at h
    · exact (Option.some.injEq _ _ ▸ h) ▸ List.mem_cons_self x rest
    · exact List.mem_cons_of_mem x (ih h)

theorem mem_removeFetch {l : List InFlightFetch} {fid : Nat} {f : InFlightFetch}
    (h : f ∈ removeFetch l fid) : f ∈ l := by
  induction l with
  | nil => exact absurd h (List.not_mem_nil f)
  | cons x rest ih =>
    simp only [removeFetch] at h
    split at h
    · exact List.mem_cons_of_mem x h
    · rcases List.mem_cons.mp h with h | h
      · exact h ▸ List.mem_cons_self x rest
      · exact List.mem_cons_of_mem x (ih h)

theorem mem_removeTimer {l : List (Nat × String × Nat)} {tid : Nat} {t : Nat × String × Nat}
    (h : t ∈ removeTimer l tid) : t ∈ l := by
  induction l with
  | nil => exact absurd h (List.not_mem_nil t)
  | cons x rest ih =>
    obtain ⟨x₁, x₂, x₃⟩ := x
    simp only [removeTimer] at h
    split at h
    · exact List.mem_cons_of_mem _ h
    · rcases List.mem_cons.mp h with h | h
      · exact h ▸ List.mem_cons_self _ rest
      · exact List.mem_cons_of_mem _ (ih h)

theorem mem_fst_of_mem_addWaiter {ps : List (Nat × List Caller)} {pid : Nat} {c : Caller}
    {p : Nat × List Caller} (h : p ∈ addWaiter ps pid c) : p.1 ∈ ps.map Prod.fst := by
  have := List.mem_map_of_mem Prod.fst h
  rwa [addWaiter_keys] at this

/-! ### The invariant holds in every reachable state -/

theorem inv_init : Inv init := by
  refine ⟨?_, ?_, ?_, ?_, rfl, ?_, rfl, ?_⟩ <;> simp [init, Inv, MAX_CONCURRENT]

theorem inv_dedupCall {s : OptState} (c : Caller) (key : String) (fid : Nat)
    (h : Inv s) : Inv (dedupCall s c key fid) := by
  obtain ⟨hnd, hbatch, htie, harr, hact, hcap, hflag, hpid⟩ := h
  simp only [dedupCall]
  cases halk : alookup s.pendingRequests key with
  | some pid =>
    refine ⟨hnd, hbatch, htie, harr, hact, hcap, hflag, ?_⟩
    intro p hp
    obtain ⟨q, hq, hqe⟩ := List.mem_map.mp (mem_fst_of_mem_addWaiter hp)
    exact hqe ▸ hpid q hq
  | none =>
    refine ⟨?_, hbatch, htie, harr, hact, hcap, hflag, ?_⟩
    · simp only [List.map_append, List.map_cons, List.map_nil]
      rw [List.nodup_append]
      refine ⟨hnd, List.nodup_singleton _, ?_⟩
      intro k hk hk'
      simp only [List.mem_singleton] at hk'
      obtain ⟨q, hq, hqe⟩ := List.mem_map.mp hk
      exact alookup_eq_none_iff.mp halk q hq (hqe.trans hk')
    · intro p hp
      rcases List.mem_append.mp hp with hp | hp
      · exact Nat.lt_succ_of_lt (hpid p hp)
      · simp only [List.mem_singleton] at hp
        simp [hp]

theorem inv_dedupSettle {s : OptState} (fid : Nat) (o : Outcome)
    (h : Inv s) : Inv (dedupSettle s fid o) := by
  obtain ⟨hnd, hbatch, htie, harr, hact, hcap, hflag, hpid⟩ := h
  simp only [dedupSettle]
  cases hff : findFetch s.inFlight fid with
  | none => exact ⟨hnd, hbatch, htie, harr, hact, hcap, hflag, hpid⟩
  | some f =>
    simp only [settlePromise_eq, deliver]
    refine ⟨?_, hbatch, htie, harr, hact, hcap, hflag, ?_⟩
    · exact List.Nodup.sublist ((aerase_sublist _ _).map Prod.fst) hnd
    · intro p hp
      exact hpid p (mem_removePid hp)

theorem pushCode_bound {q : List BatchRequest} (code : String) (pid : Nat)
    (h : ∀ b ∈ q, b.codes.length ≤ MAX_BATCH_SIZE) :
    ∀ b ∈ pushCode code pid q, b.codes.length ≤ MAX_BATCH_SIZE := by
  have happend : ∀ b ∈ q ++ [BatchRequest.mk [code] pid code],
      b.codes.length ≤ MAX_BATCH_SIZE := by
    intro b hb
    rcases List.mem_append.mp hb with hb | hb
    · exact h b hb
    · simp only [List.mem_singleton] at hb
      subst hb
      simp [MAX_BATCH_SIZE]
  simp only [pushCode]
  split
  · rename_i b₀ hlast
    split
    · rename_i hsz
      have hne : q ≠ [] := by
        intro h0
        rw [h0] at hlast
        exact absurd hlast (by simp)
      rw [updateLast_eq _ _ hne]
      intro b hb
      rcases List.mem_append.mp hb with hb | hb
      · exact h b ((List.dropLast_sublist _).subset hb)
      · simp only [List.mem_singleton] at hb
        subst hb
        have hgl : q.getLast hne = b₀ := by
          rw [List.getLast?_eq_getLast _ hne] at hlast
          exact Option.some.inj hlast
        simp only [hgl, List.length_append, List.length_singleton]
        omega
    · exact happend
  · exact happend

theorem mem_creator_pushCode {q : List BatchRequest} {code : String} {pid : Nat}
    {b : BatchRequest} (hb : b ∈ pushCode code pid q) :
    b.creator ∈ q.map BatchRequest.creator ∨ b.creator = pid := by
  have happend : b ∈ q ++ [BatchRequest.mk [code] pid code] →
      b.creator ∈ q.map BatchRequest.creator ∨ b.creator = pid := by
    intro hb'
    rcases List.mem_append.mp hb' with hb' | hb'
    · exact Or.inl (List.mem_map_of_mem BatchRequest.creator hb')
    · simp only [List.mem_singleton] at hb'
      subst hb'
      exact Or.inr rfl
  simp only [pushCode] at hb
  split at hb
  · split at hb
    · left
      rw [← updateLast_creator code q]
      exact List.mem_map_of_mem BatchRequest.creator hb
    · exact happend hb
  · exact happend hb

theorem inv_batchCall {s : OptState} (c : Nat) (code : String) (userId : String)
    (h : Inv s) : Inv (batchCall s c code userId) := by
  obtain ⟨hnd, hbatch, htie, harr, hact, hcap, hflag, hpid⟩ := h
  refine ⟨hnd, pushCode_bound code s.nextPid hbatch, htie, harr, hact, hcap, hflag, ?_⟩
  intro p hp
  rcases List.mem_append.mp hp with hp | hp
  · exact Nat.lt_succ_of_lt (hpid p hp)
  · simp only [List.mem_singleton] at hp
    subst hp
    exact Nat.lt_succ_self s.nextPid

theorem inv_flush {s : OptState} (resp : Nat → BatchResp)
    (h : Inv s) : Inv (processBatchedLikes s resp) := by
  obtain ⟨hnd, hbatch, htie, harr, hact, hcap, hflag, hpid⟩ := h
  simp only [processBatchedLikes]
  split
  · exact ⟨hnd, hbatch, htie, harr, hact, hcap, hflag, hpid⟩
  · rename_i u hu
    obtain ⟨u1, u2, u3, u4, u5, u6, u7, u8, u9, u10, u11, u12, u13⟩ :=
      flushAll_unchanged s.likeBatchQueue
        { s with likeBatchTimer := none, likeBatchQueue := [] } u resp 0
    refine ⟨by rw [u1]; exact hnd, by rw [u2]; simp, by rw [u4]; exact htie, ?_, ?_, ?_, ?_, ?_⟩
    · intro q hq
      rw [u4] at hq
      rw [u8]
      exact harr q hq
    · rw [u6, u11]
      exact hact
    · rw [u6]
      exact hcap
    · rw [u5]
      exact hflag
    · intro p hp
      rw [u7]
      have hp' := mem_promises_flushAll hp
      exact hpid p hp'

theorem inv_queueRequest {s : OptState} (c : Nat) (key : String) (priority : Int)
    (fid : Nat) (h : Inv s) : Inv (queueRequest s c key priority fid) := by
  obtain ⟨hnd, hbatch, htie, harr, hact, hcap, hflag, hpid⟩ := h
  simp only [queueRequest]
  set q₀ : QueuedReq := ⟨s.nextArrival, priority, key, fid, c⟩ with hq₀
  set s₁ : OptState :=
    { s with requestQueue := s.requestQueue ++ [q₀], nextArrival := s.nextArrival + 1 }
    with hs₁
  have htie₁ : s₁.requestQueue.Pairwise tieLT := by
    rw [hs₁]
    simp only [List.pairwise_append]
    refine ⟨htie, List.pairwise_singleton _ _, ?_⟩
    intro a ha b hb
    simp only [List.mem_singleton] at hb
    subst hb
    intro _
    exact harr a ha
  have harr₁ : ∀ q ∈ s₁.requestQueue, q.arrival < s₁.nextArrival := by
    intro q hq
    rcases List.mem_append.mp hq with hq | hq
    · exact Nat.lt_succ_of_lt (harr q hq)
    · simp only [List.mem_singleton] at hq
      simp [hq, hq₀]
  obtain ⟨p1, p2, p3, p4, p5, p6, p7, p8, p9, p10, p11, p12, p13, pqm,
    ⟨t, pt1, pt2, pt3⟩, pcap, ptie⟩ := processQueue_spec s₁ hflag
  refine ⟨by rw [p1]; exact hnd, by rw [p2]; exact hbatch, ptie htie₁, ?_, ?_, pcap hcap, p13, ?_⟩
  · intro q hq
    rw [p11]
    exact harr₁ q (pqm q hq)
  · rw [pt1, pt3]
    simp [hact]
  · intro p hp
    rw [p4] at hp
    rw [p10]
    exact hpid p hp

theorem inv_completeRequest {s : OptState} (a : Nat) (o : Outcome)
    (h : Inv s) : Inv (completeRequest s a o) := by
  obtain ⟨hnd, hbatch, htie, harr, hact, hcap, hflag, hpid⟩ := h
  simp only [completeRequest]
  split
  · exact ⟨hnd, hbatch, htie, harr, hact, hcap, hflag, hpid⟩
  · rename_i q hfr
    have hlen := removeRun_length hfr
    have hge : 1 ≤ s.activeRequests := by
      rw [hact]
      omega
    set s₂ : OptState := deliver
      { s with running := removeRun s.running a, activeRequests := s.activeRequests - 1 }
      (Caller.ui q.caller) o with hs₂
    have hflag₂ : s₂.isProcessingQueue = false := hflag
    obtain ⟨p1, p2, p3, p4, p5, p6, p7, p8, p9, p10, p11, p12, p13, pqm,
      ⟨t, pt1, pt2, pt3⟩, pcap, ptie⟩ := processQueue_spec s₂ hflag₂
    have h₂act : s₂.activeRequests = s₂.running.length := by
      show s.activeRequests - 1 = (removeRun s.running a).length
      omega
    have h₂cap : s₂.activeRequests ≤ MAX_CONCURRENT := by
      show s.activeRequests - 1 ≤ MAX_CONCURRENT
      omega
    refine ⟨by rw [p1]; exact hnd, by rw [p2]; exact hbatch, ptie htie, ?_, ?_,
      pcap h₂cap, p13, ?_⟩
    · intro qq hqq
      rw [p11]
      exact harr qq (pqm qq hqq)
    · rw [pt1, pt3, h₂act]
      simp
    · intro p hp
      rw [p4] at hp
      rw [p10]
      exact hpid p hp

theorem inv_step {s : OptState} (e : Ev) (h : Inv s) : Inv (step s e) := by
  cases e with
  | dedup c key fid => exact inv_dedupCall (Caller.ui c) key fid h
  | settle fid o => exact inv_dedupSettle fid o h
  | batch c code userId => exact inv_batchCall c code userId h
  | flush resp => exact inv_flush resp h
  | queue c key priority fid => exact inv_queueRequest c key priority fid h
  | complete a o => exact inv_completeRequest a o h
  | callPrefetch key fid =>
    obtain ⟨hnd, hbatch, htie, harr, hact, hcap, hflag, hpid⟩ := h
    exact ⟨hnd, hbatch, htie, harr, hact, hcap, hflag, hpid⟩
  | firePrefetch tid =>
    simp only [step, prefetchFire]
    cases hft : findTimer s.prefetchTimers tid with
    | none => exact h
    | some kf =>
      obtain ⟨key, fid⟩ := kf
      refine inv_dedupCall (Caller.sink tid) key fid ?_
      obtain ⟨hnd, hbatch, htie, harr, hact, hcap, hflag, hpid⟩ := h
      exact ⟨hnd, hbatch, htie, harr, hact, hcap, hflag, hpid⟩
  | clearAll =>
    obtain ⟨hnd, hbatch, htie, harr, hact, hcap, hflag, hpid⟩ := h
    exact ⟨List.nodup_nil, fun b hb => absurd hb (List.not_mem_nil b), List.Pairwise.nil,
      fun q hq => absurd hq (List.not_mem_nil q), hact, hcap, hflag, hpid⟩

theorem inv_runFrom {s : OptState} (evts : List Ev) (h : Inv s) : Inv (runFrom s evts) := by
  induction evts generalizing s with
  | nil => exact h
  | cons e rest ih => exact ih (inv_step e h)

theorem inv_run (evts : List Ev) : Inv (run evts) := inv_runFrom evts inv_init

theorem runFrom_append (s : OptState) (l₁ l₂ : List Ev) :
    runFrom s (l₁ ++ l₂) = runFrom (runFrom s l₁) l₂ :=
  List.foldl_append _ _ _ _

theorem run_append (l₁ l₂ : List Ev) : run (l₁ ++ l₂) = runFrom (run l₁) l₂ :=
  runFrom_append init l₁ l₂

/-! ### Closed forms of the dedup operations -/

theorem dedupCall_invokes {s : OptState} {key : String} (c : Caller) (fid : Nat)
    (h : alookup s.pendingRequests key = none) :
    (dedupCall s c key fid).fetchLog = s.fetchLog ++ [fid] := by
  simp only [dedupCall, h]

theorem dedupCall_join {s : OptState} {key : String} (c : Caller) (fid : Nat) (pid : Nat)
    (h : alookup s.pendingRequests key = some pid) :
    dedupCall s c key fid = { s with promises := addWaiter s.promises pid c } := by
  simp only [dedupCall, h]

theorem dedupCall_create {s : OptState} {key : String} (c : Caller) (fid : Nat)
    (h : alookup s.pendingRequests key = none) :
    dedupCall s c key fid
      = { s with
          promises := s.promises ++ [(s.nextPid, [])],
          pendingRequests := s.pendingRequests ++ [(key, s.nextPid)],
          inFlight := s.inFlight ++ [⟨fid, key, s.nextPid, c⟩],
          fetchLog := s.fetchLog ++ [fid],
          nextPid := s.nextPid + 1 } := by
  simp only [dedupCall, h]

theorem dedupSettle_eq {s : OptState} {fid : Nat} {f : InFlightFetch} (o : Outcome)
    (hff : findFetch s.inFlight fid = some f) :
    dedupSettle s fid o
      = { s with
          inFlight := removeFetch s.inFlight fid,
          promises := removePid s.promises f.pid,
          pendingRequests := aerase s.pendingRequests f.key,
          delivered := s.delivered
            ++ ((waitersIn s.promises f.pid).map (fun c => (c, o)) ++ [(f.owner, o)]),
          surfacedErrors := s.surfacedErrors
            ++ (surfacedList (waitersIn s.promises f.pid) o ++ surfacedAppend f.owner o) } := by
  simp only [dedupSettle, hff]
  rw [settlePromise_eq]
  simp [deliver, List.append_assoc]

/-! ### The dispatcher dispatches the head of the stable sort -/

theorem processQueueLoop_head (fuel : Nat) {s : OptState} {d : QueuedReq}
    {rest : List QueuedReq} (hq : jsSort s.requestQueue = d :: rest)
    (hne : ¬ (s.requestQueue = [] ∨ ¬ s.activeRequests < MAX_CONCURRENT)) :
    ∃ t, (processQueueLoop (fuel + 1) s).running = s.running ++ d :: t := by
  simp only [processQueueLoop]
  rw [if_neg hne, hq]
  obtain ⟨-, -, -, -, -, -, -, -, -, -, -, -, -, -, ⟨t, ht1, -, -⟩, -, -⟩ :=
    processQueueLoop_spec fuel
      { s with requestQueue := rest, activeRequests := s.activeRequests + 1,
               running := s.running ++ [d], fetchLog := s.fetchLog ++ [d.fid] }
  refine ⟨t, ?_⟩
  rw [ht1]
  simp

theorem processQueue_dispatch_head {s : OptState} {d : QueuedReq} {rest : List QueuedReq}
    (hflag : s.isProcessingQueue = false) (hq : jsSort s.requestQueue = d :: rest)
    (ha : s.activeRequests < MAX_CONCURRENT) :
    ∃ t, (processQueue s).running = s.running ++ d :: t := by
  have hne : s.requestQueue ≠ [] := by
    intro h0
    rw [h0] at hq
    exact absurd hq (by simp [jsSort])
  obtain ⟨q0, qrest, hqe⟩ : ∃ q0 qrest, s.requestQueue = q0 :: qrest := by
    cases hq0 : s.requestQueue with
    | nil => exact absurd hq0 hne
    | cons a b => exact ⟨a, b, rfl⟩
  have hlen : s.requestQueue.length = qrest.length + 1 := by
    rw [hqe]
    rfl
  have hpq : processQueue s
      = { processQueueLoop s.requestQueue.length { s with isProcessingQueue := true }
          with isProcessingQueue := false } := by
    simp [processQueue, hflag]
  have hq' : jsSort ({ s with isProcessingQueue := true } : OptState).requestQueue
      = d :: rest := hq
  have hne' : ¬ (({ s with isProcessingQueue := true } : OptState).requestQueue = []
      ∨ ¬ ({ s with isProcessingQueue := true } : OptState).activeRequests
          < MAX_CONCURRENT) := by
    push_neg
    exact ⟨hne, ha⟩
  obtain ⟨t, ht⟩ := processQueueLoop_head qrest.length hq' hne'
  refine ⟨t, ?_⟩
  rw [hpq, hlen]
  exact ht

/-! ### Computation of the deduplication scenario -/

theorem step_init_dedup (key : String) (fid : Nat) :
    step init (Ev.dedup 0 key fid) = dedupMid key fid 0 := by
  show dedupCall init (Caller.ui 0) key fid = dedupMid key fid 0
  rw [dedupCall_create (Caller.ui 0) fid (by rfl)]
  rfl

theorem runFrom_joinCalls (key : String) (fid : Nat) :
    ∀ n : Nat, runFrom (dedupMid key fid 0) (joinCalls key fid n) = dedupMid key fid n := by
  intro n
  induction n with
  | zero => rfl
  | succ m ih =>
    show runFrom _ (joinCalls key fid m ++ [Ev.dedup (m + 1) key fid]) = _
    rw [runFrom_append, ih]
    show dedupCall (dedupMid key fid m) (Caller.ui (m + 1)) key fid = _
    rw [dedupCall_join (Caller.ui (m + 1)) fid 0 (by simp [dedupMid, alookup, init])]
    simp [dedupMid, addWaiter, uiRange, init]

theorem count_uiRange (n i : Nat) :
    (uiRange n).count (Caller.ui i) = if 1 ≤ i ∧ i ≤ n then 1 else 0 := by
  induction n with
  | zero =>
    rw [if_neg (by omega)]
    rfl
  | succ m ih =>
    show ((uiRange m) ++ [Caller.ui (m + 1)]).count (Caller.ui i) = _
    rw [List.count_append, ih]
    by_cases hi : i = m + 1
    · subst hi
      rw [if_neg (by omega), if_pos (by omega)]
      simp [List.count_singleton]
    · have h2 : ([Caller.ui (m + 1)].count (Caller.ui i)) = 0 := by
        rw [List.count_singleton]
        simp
        omega
      rw [h2]
      by_cases h3 : 1 ≤ i ∧ i ≤ m
      · rw [if_pos h3, if_pos (by omega)]
      · rw [if_neg h3, if_neg (by omega)]

/-! ### The claims -/

/-- C1: the claim states that every original caller of a flushed batch group
is resolved with its own item's status from the combined response (and a
caller whose identifier is absent is rejected with a "not found" error while
the others still resolve).  The code violates this: a call that joins an
existing group only pushes its code (user.ts line 141); its resolve/reject
callbacks are dropped, and only the group creator's stored closure
(lines 146-153) ever runs.  Evaluating the code at the failing input — three
calls A, B, C in one window, flushed with a response mapping all three —
exactly one combined request `{A, B, C}` is issued, caller 0 (the creator)
resolves with A's status, but callers 1 and 2 are never settled (no outcome
is ever delivered to them, and no batch bookkeeping for them remains).  With
the response containing only B, the creator rejects with the synthesized
error while caller 1 — whose item IS in the response — still gets
nothing. -/
theorem C1_batch_joiners_never_settled :
    (run (batchTraceABC ++ [Ev.flush respABC])).requestsIssued = [("u", ["A", "B", "C"])]
    ∧ deliveredToC (run (batchTraceABC ++ [Ev.flush respABC])) (Caller.ui 0)
        = [Outcome.ok (Val.like ⟨true, 3⟩)]
    ∧ deliveredToC (run (batchTraceABC ++ [Ev.flush respABC])) (Caller.ui 1) = []
    ∧ deliveredToC (run (batchTraceABC ++ [Ev.flush respABC])) (Caller.ui 2) = []
    ∧ (run (batchTraceABC ++ [Ev.flush respABC])).likeBatchQueue = []
    ∧ deliveredToC (run [Ev.batch 0 "A" "u", Ev.batch 1 "B" "u", Ev.flush respOnlyB])
        (Caller.ui 0) = [Outcome.err "Video not found in batch response"]
    ∧ deliveredToC (run [Ev.batch 0 "A" "u", Ev.batch 1 "B" "u", Ev.flush respOnlyB])
        (Caller.ui 1) = [] := by
  refine ⟨?_, ?_, ?_, ?_, ?_, ?_, ?_⟩ <;> decide

/-- C4: the claim states that when a group's combined request fails, every
caller of that group is rejected with that error.  The code rejects only the
group creator (the only stored `reject`, user.ts lines 154, 197-199); a
joined caller is never settled.  Evaluating the code at the failing input —
two calls A, B in one group whose combined request fails — caller 0 is
rejected with the error and caller 1 receives nothing, ever. -/
theorem C4_batch_failure_rejects_only_creator :
    deliveredToC (run [Ev.batch 0 "A" "u", Ev.batch 1 "B" "u",
        Ev.flush (fun _ => BatchResp.fail "Batch request failed")]) (Caller.ui 0)
      = [Outcome.err "Batch request failed"]
    ∧ deliveredToC (run [Ev.batch 0 "A" "u", Ev.batch 1 "B" "u",
        Ev.flush (fun _ => BatchResp.fail "Batch request failed")]) (Caller.ui 1) = [] := by
  exact ⟨by decide, by decide⟩

/-- C5 counterexample: the claim says that immediately after any `clear()`,
`getStats()` reports zero active requests regardless of prior state.  But
`clear()` (user.ts lines 274-282) never touches `activeRequests`: queue one
unit of work (it is dispatched at once, `activeRequests = 1`), call
`clear()` while it is still running — `getStats()` reports one active
request, not zero. -/
theorem C5_counterexample_active_not_reset :
    getStats (run [Ev.queue 0 "k" 0 1, Ev.clearAll])
      = { pendingRequests := 0, queuedRequests := 0, activeRequests := 1, batchedLikes := 0 }
    ∧ (getStats (run [Ev.queue 0 "k" 0 1, Ev.clearAll])).activeRequests ≠ 0 := by
  exact ⟨by decide, by decide⟩

/-- C5 (amended): immediately after `clear()`, `getStats()` reports zero
pending requests, zero queued requests and zero batched items; the active
request count is NOT reset — it still reports the requests dispatched before
the `clear()` that have not yet completed. -/
theorem C5_amended_stats_after_clear (evts : List Ev) :
    getStats (run (evts ++ [Ev.clearAll]))
      = { pendingRequests := 0, queuedRequests := 0,
          activeRequests := (run evts).activeRequests, batchedLikes := 0 } := by
  rw [run_append]
  show getStats (clear (run evts)) = _
  simp [getStats, clear]

/-- C8: after the fetch owned by a `deduplicate(k, fetch)` call settles
(resolve or reject), the `finally` block (user.ts line 126) has removed the
pending entry for `k`, so a subsequent `deduplicate(k, fetch')` takes the
create branch and invokes `fetch'` anew. -/
theorem C8_settled_key_refetches (evts : List Ev) (fid : Nat) (o : Outcome)
    (f : InFlightFetch) (h : findFetch (run evts).inFlight fid = some f)
    (c : Nat) (fid' : Nat) :
    alookup (run (evts ++ [Ev.settle fid o])).pendingRequests f.key = none
    ∧ (run (evts ++ [Ev.settle fid o, Ev.dedup c f.key fid'])).fetchLog
        = (run (evts ++ [Ev.settle fid o])).fetchLog ++ [fid'] := by
  have hrw : run (evts ++ [Ev.settle fid o]) = dedupSettle (run evts) fid o := by
    rw [run_append]
    rfl
  have hnone : alookup (run (evts ++ [Ev.settle fid o])).pendingRequests f.key = none := by
    rw [hrw, dedupSettle_eq o h]
    show alookup (aerase (run evts).pendingRequests f.key) f.key = none
    exact alookup_aerase_self (inv_run evts).1
  refine ⟨hnone, ?_⟩
  have hrw₂ : run (evts ++ [Ev.settle fid o, Ev.dedup c f.key fid'])
      = dedupCall (run (evts ++ [Ev.settle fid o])) (Caller.ui c) f.key fid' := by
    have : evts ++ [Ev.settle fid o, Ev.dedup c f.key fid']
        = (evts ++ [Ev.settle fid o]) ++ [Ev.dedup c f.key fid'] := by
      simp
    rw [this, run_append]
    rfl
  rw [hrw₂]
  exact dedupCall_invokes (Caller.ui c) fid' hnone

/-- C8 witness: a concrete instance — caller 0 deduplicates key "k" with
fetcher 1; after it settles, the entry is gone and caller 1's call with
fetcher 2 invokes fetcher 2. -/
theorem C8_settled_key_refetches_witness :
    alookup (run ([Ev.dedup 0 "k" 1]
        ++ [Ev.settle 1 (Outcome.ok (Val.num 5))])).pendingRequests "k" = none
    ∧ (run ([Ev.dedup 0 "k" 1]
        ++ [Ev.settle 1 (Outcome.ok (Val.num 5)), Ev.dedup 1 "k" 2])).fetchLog
        = (run ([Ev.dedup 0 "k" 1]
            ++ [Ev.settle 1 (Outcome.ok (Val.num 5))])).fetchLog ++ [2] :=
  C8_settled_key_refetches [Ev.dedup 0 "k" 1] 1 (Outcome.ok (Val.num 5))
    ⟨1, "k", 0, Caller.ui 0⟩ (by decide) 1 2

/-- C2: `n + 1` concurrent `deduplicate` calls for one key (the first call
starts the fetch, callers `1..n` join while it is in flight), after which
the fetch settles with outcome `o` (a value or an error): the underlying
fetcher was invoked exactly once (the fetch log of the whole scenario is
`[fid]`), and every one of the `n + 1` callers receives exactly the one
outcome `o`. -/
theorem C2_dedup_one_fetch_same_outcome (key : String) (fid : Nat) (n : Nat) (o : Outcome) :
    (run (dedupScenario key fid n o)).fetchLog = [fid]
    ∧ ∀ i, i ≤ n → deliveredToC (run (dedupScenario key fid n o)) (Caller.ui i) = [o] := by
  have h1 : run (dedupScenario key fid n o)
      = runFrom (step init (Ev.dedup 0 key fid))
          (joinCalls key fid n ++ [Ev.settle fid o]) := rfl
  have hff : findFetch (dedupMid key fid n).inFlight fid
      = some ⟨fid, key, 0, Caller.ui 0⟩ := by
    simp [dedupMid, findFetch, init]
  have hrun : run (dedupScenario key fid n o)
      = dedupSettle (dedupMid key fid n) fid o := by
    rw [h1, step_init_dedup, runFrom_append, runFrom_joinCalls]
    rfl
  rw [hrun, dedupSettle_eq o hff]
  constructor
  · rfl
  · intro i hi
    show deliveredIn ((dedupMid key fid n).delivered
        ++ ((waitersIn (dedupMid key fid n).promises 0).map (fun c => (c, o))
            ++ [(Caller.ui 0, o)])) (Caller.ui i) = [o]
    have hd : (dedupMid key fid n).delivered = [] := rfl
    have hw : waitersIn (dedupMid key fid n).promises 0 = uiRange n := by
      show waitersIn [(0, uiRange n)] 0 = uiRange n
      simp [waitersIn]
    rw [hd, hw, List.nil_append, deliveredIn_append, deliveredIn_map_const, count_uiRange]
    by_cases hi0 : i = 0
    · subst hi0
      rw [if_neg (by omega)]
      simp [deliveredIn]
    · rw [if_pos (by omega)]
      have h0i : ¬ (Caller.ui 0 = Caller.ui i) := by
        simp
        omega
      simp [deliveredIn, h0i]

/-- C2 witness: a concrete instance — three concurrent callers (0, 1, 2) for
key "k"; fetcher 1 runs once and each caller receives the resolved value
5. -/
theorem C2_dedup_one_fetch_same_outcome_witness :
    (run (dedupScenario "k" 1 2 (Outcome.ok (Val.num 5)))).fetchLog = [1]
    ∧ deliveredToC (run (dedupScenario "k" 1 2 (Outcome.ok (Val.num 5)))) (Caller.ui 1)
        = [Outcome.ok (Val.num 5)] :=
  ⟨(C2_dedup_one_fetch_same_outcome "k" 1 2 (Outcome.ok (Val.num 5))).1,
   (C2_dedup_one_fetch_same_outcome "k" 1 2 (Outcome.ok (Val.num 5))).2 1 (by decide)⟩

/-- C7: (a) in every reachable state, no batch group holds more than
`MAX_BATCH_SIZE = 50` item identifiers; (b) 51 rapid `batchLikeStatus`
calls produce exactly two groups, of 50 and 1 items; (c) when the armed
flush timer fires, the groups are flushed in creation order, each one
issuing its own combined network request carrying its deduplicated
codes. -/
theorem C7_batch_bound_and_ordered_flush :
    (∀ evts : List Ev, ∀ b ∈ (run evts).likeBatchQueue,
        b.codes.length ≤ MAX_BATCH_SIZE)
    ∧ (run trace51).likeBatchQueue.map (fun b => b.codes.length) = [50, 1]
    ∧ (∀ (evts : List Ev) (resp : Nat → BatchResp) (u : String),
        (run evts).likeBatchTimer = some u →
        (run (evts ++ [Ev.flush resp])).requestsIssued
          = (run evts).requestsIssued
            ++ (run evts).likeBatchQueue.map (fun b => (u, setDedup b.codes))) := by
  refine ⟨?_, ?_, ?_⟩
  · intro evts b hb
    exact (inv_run evts).2.1 b hb
  · set_option maxRecDepth 100000 in decide
  · intro evts resp u hu
    rw [run_append]
    show (processBatchedLikes (run evts) resp).requestsIssued = _
    rw [show processBatchedLikes (run evts) resp
        = flushAll { run evts with likeBatchTimer := none, likeBatchQueue := [] }
            (run evts).likeBatchQueue u resp 0 from by
      simp [processBatchedLikes, hu]]
    rw [flushAll_requestsIssued]

/-- C7 witness: a concrete instance — after one call for item A the sole
group holds one code (≤ 50), and flushing issues its combined request. -/
theorem C7_batch_bound_and_ordered_flush_witness :
    (BatchRequest.mk ["A"] 0 "A").codes.length ≤ MAX_BATCH_SIZE
    ∧ (run ([Ev.batch 0 "A" "u"] ++ [Ev.flush respABC])).requestsIssued
        = (run [Ev.batch 0 "A" "u"]).requestsIssued
          ++ (run [Ev.batch 0 "A" "u"]).likeBatchQueue.map
              (fun b => ("u", setDedup b.codes)) :=
  ⟨C7_batch_bound_and_ordered_flush.1 [Ev.batch 0 "A" "u"]
      (BatchRequest.mk ["A"] 0 "A") (by decide),
   C7_batch_bound_and_ordered_flush.2.2 [Ev.batch 0 "A" "u"] respABC "u" (by decide)⟩

/-- C10: `clear()` is a frame: it mutates only the pending-request map, the
batch queue, the batch flush timer and the priority queue, and in particular
does not cancel a scheduled prefetch timer.  When that timer later fires,
the deduplicated fetch still runs: the fetcher is invoked and a fresh
pending-request entry for its key is created. -/
theorem C10_clear_spares_prefetch_timer (evts : List Ev) (tid : Nat) (key : String)
    (fid : Nat) (h : findTimer (run evts).prefetchTimers tid = some (key, fid)) :
    (run (evts ++ [Ev.clearAll])).prefetchTimers = (run evts).prefetchTimers
    ∧ (run (evts ++ [Ev.clearAll])).activeRequests = (run evts).activeRequests
    ∧ (run (evts ++ [Ev.clearAll])).running = (run evts).running
    ∧ (run (evts ++ [Ev.clearAll])).inFlight = (run evts).inFlight
    ∧ (run (evts ++ [Ev.clearAll])).promises = (run evts).promises
    ∧ (run (evts ++ [Ev.clearAll])).delivered = (run evts).delivered
    ∧ (run (evts ++ [Ev.clearAll])).surfacedErrors = (run evts).surfacedErrors
    ∧ (run (evts ++ [Ev.clearAll])).fetchLog = (run evts).fetchLog
    ∧ (run (evts ++ [Ev.clearAll])).requestsIssued = (run evts).requestsIssued
    ∧ (run (evts ++ [Ev.clearAll])).nextPid = (run evts).nextPid
    ∧ (run (evts ++ [Ev.clearAll])).nextArrival = (run evts).nextArrival
    ∧ (run (evts ++ [Ev.clearAll])).nextTimerId = (run evts).nextTimerId
    ∧ (run (evts ++ [Ev.clearAll])).isProcessingQueue = (run evts).isProcessingQueue
    ∧ (run (evts ++ [Ev.clearAll])).pendingRequests = []
    ∧ (run (evts ++ [Ev.clearAll])).likeBatchQueue = []
    ∧ (run (evts ++ [Ev.clearAll])).likeBatchTimer = none
    ∧ (run (evts ++ [Ev.clearAll])).requestQueue = []
    ∧ (run (evts ++ [Ev.clearAll, Ev.firePrefetch tid])).fetchLog
        = (run evts).fetchLog ++ [fid]
    ∧ alookup (run (evts ++ [Ev.clearAll, Ev.firePrefetch tid])).pendingRequests key
        = some (run evts).nextPid := by
  have hc : run (evts ++ [Ev.clearAll]) = clear (run evts) := by
    rw [run_append]
    rfl
  have hcf : run (evts ++ [Ev.clearAll, Ev.firePrefetch tid])
      = prefetchFire (clear (run evts)) tid := by
    have : evts ++ [Ev.clearAll, Ev.firePrefetch tid]
        = (evts ++ [Ev.clearAll]) ++ [Ev.firePrefetch tid] := by
      simp
    rw [this, run_append, hc]
    rfl
  have hft : findTimer (clear (run evts)).prefetchTimers tid = some (key, fid) := h
  have hfire : prefetchFire (clear (run evts)) tid
      = dedupCall
          { clear (run evts) with
            prefetchTimers := removeTimer (clear (run evts)).prefetchTimers tid }
          (Caller.sink tid) key fid := by
    simp [prefetchFire, hft]
  have hlk : alookup ({ clear (run evts) with
      prefetchTimers := removeTimer (clear (run evts)).prefetchTimers tid }
        : OptState).pendingRequests key = none := rfl
  rw [hc, hcf, hfire, dedupCall_create (Caller.sink tid) fid hlk]
  refine ⟨rfl, rfl, rfl, rfl, rfl, rfl, rfl, rfl, rfl, rfl, rfl, rfl, rfl, rfl, rfl,
    rfl, rfl, rfl, ?_⟩
  show alookup ([] ++ [(key, (run evts).nextPid)]) key = some (run evts).nextPid
  simp [alookup]

/-- C10 witness: a concrete instance — a prefetch scheduled for key "k"
with fetcher 7 survives a `clear()`; after the delay it invokes the fetcher
and creates a fresh pending entry. -/
theorem C10_clear_spares_prefetch_timer_witness :
    (run ([Ev.callPrefetch "k" 7] ++ [Ev.clearAll])).prefetchTimers
      = (run [Ev.callPrefetch "k" 7]).prefetchTimers
    ∧ (run ([Ev.callPrefetch "k" 7] ++ [Ev.clearAll])).activeRequests
      = (run [Ev.callPrefetch "k" 7]).activeRequests
    ∧ (run ([Ev.callPrefetch "k" 7] ++ [Ev.clearAll])).running
      = (run [Ev.callPrefetch "k" 7]).running
    ∧ (run ([Ev.callPrefetch "k" 7] ++ [Ev.clearAll])).inFlight
      = (run [Ev.callPrefetch "k" 7]).inFlight
    ∧ (run ([Ev.callPrefetch "k" 7] ++ [Ev.clearAll])).promises
      = (run [Ev.callPrefetch "k" 7]).promises
    ∧ (run ([Ev.callPrefetch "k" 7] ++ [Ev.clearAll])).delivered
      = (run [Ev.callPrefetch "k" 7]).delivered
    ∧ (run ([Ev.callPrefetch "k" 7] ++ [Ev.clearAll])).surfacedErrors
      = (run [Ev.callPrefetch "k" 7]).surfacedErrors
    ∧ (run ([Ev.callPrefetch "k" 7] ++ [Ev.clearAll])).fetchLog
      = (run [Ev.callPrefetch "k" 7]).fetchLog
    ∧ (run ([Ev.callPrefetch "k" 7] ++ [Ev.clearAll])).requestsIssued
      = (run [Ev.callPrefetch "k" 7]).requestsIssued
    ∧ (run ([Ev.callPrefetch "k" 7] ++ [Ev.clearAll])).nextPid
      = (run [Ev.callPrefetch "k" 7]).nextPid
    ∧ (run ([Ev.callPrefetch "k" 7] ++ [Ev.clearAll])).nextArrival
      = (run [Ev.callPrefetch "k" 7]).nextArrival
    ∧ (run ([Ev.callPrefetch "k" 7] ++ [Ev.clearAll])).nextTimerId
      = (run [Ev.callPrefetch "k" 7]).nextTimerId
    ∧ (run ([Ev.callPrefetch "k" 7] ++ [Ev.clearAll])).isProcessingQueue
      = (run [Ev.callPrefetch "k" 7]).isProcessingQueue
    ∧ (run ([Ev.callPrefetch "k" 7] ++ [Ev.clearAll])).pendingRequests = []
    ∧ (run ([Ev.callPrefetch "k" 7] ++ [Ev.clearAll])).likeBatchQueue = []
    ∧ (run ([Ev.callPrefetch "k" 7] ++ [Ev.clearAll])).likeBatchTimer = none
    ∧ (run ([Ev.callPrefetch "k" 7] ++ [Ev.clearAll])).requestQueue = []
    ∧ (run ([Ev.callPrefetch "k" 7] ++ [Ev.clearAll, Ev.firePrefetch 0])).fetchLog
        = (run [Ev.callPrefetch "k" 7]).fetchLog ++ [7]
    ∧ alookup (run ([Ev.callPrefetch "k" 7]
        ++ [Ev.clearAll, Ev.firePrefetch 0])).pendingRequests "k"
        = some (run [Ev.callPrefetch "k" 7]).nextPid :=
  C10_clear_spares_prefetch_timer [Ev.callPrefetch "k" 7] 0 "k" 7 (by decide)

/-- C3: in every reachable state, (a) at most `MAX_CONCURRENT = 6` requests
are concurrently dispatched; (b) the element the dispatcher would take next
— the head of the stable priority sort of `requestQueue` — has maximal
priority among all pending items, and among pending items of equal priority
it is the earliest arrival (stable sort = ties broken by arrival order);
(c) when an active request completes and thereby frees capacity, exactly
that head element is dispatched next (appended to the running set before
anything else). -/
theorem C3_concurrency_cap_and_priority_dispatch (evts : List Ev) :
    (run evts).running.length ≤ MAX_CONCURRENT
    ∧ (∀ (d : QueuedReq) (rest : List QueuedReq),
        jsSort (run evts).requestQueue = d :: rest →
        ∀ x ∈ (run evts).requestQueue,
          x.priority ≤ d.priority ∧ (x.priority = d.priority → d.arrival ≤ x.arrival))
    ∧ (∀ (a : Nat) (o : Outcome) (q d : QueuedReq) (rest : List QueuedReq),
        findRun (run evts).running a = some q →
        jsSort (run evts).requestQueue = d :: rest →
        ∃ t, (run (evts ++ [Ev.complete a o])).running
          = removeRun (run evts).running a ++ d :: t) := by
  obtain ⟨hnd, hbatch, htie, harr, hact, hcap, hflag, hpid⟩ := inv_run evts
  refine ⟨by rw [← hact]; exact hcap, ?_, ?_⟩
  · intro d rest hs x hx
    exact jsSort_head_opt htie hs x hx
  · intro a o q d rest hfr hs
    rw [run_append]
    show ∃ t, (completeRequest (run evts) a o).running
      = removeRun (run evts).running a ++ d :: t
    have hcr : completeRequest (run evts) a o
        = processQueue (deliver
            { run evts with
              running := removeRun (run evts).running a
              activeRequests := (run evts).activeRequests - 1 }
            (Caller.ui q.caller) o) := by
      simp [completeRequest, hfr]
    rw [hcr]
    set s₂ : OptState := deliver
      { run evts with
        running := removeRun (run evts).running a
        activeRequests := (run evts).activeRequests - 1 }
      (Caller.ui q.caller) o with hs₂
    have hflag₂ : s₂.isProcessingQueue = false := hflag
    have hq₂ : jsSort s₂.requestQueue = d :: rest := hs
    have hlt : s₂.activeRequests < MAX_CONCURRENT := by
      show (run evts).activeRequests - 1 < MAX_CONCURRENT
      have hmem := findRun_mem hfr
      have hpos : 0 < (run evts).running.length := List.length_pos_of_mem hmem
      have h6 : MAX_CONCURRENT = 6 := rfl
      omega
    obtain ⟨t, ht⟩ := processQueue_dispatch_head hflag₂ hq₂ hlt
    exact ⟨t, ht⟩

/-- C3 witness: a concrete instance — seven units queued (six dispatched at
once; the seventh, queued last with strictly higher priority 5, pending);
the cap holds, the pending unit is the sort head, and completing request 0
dispatches it. -/
theorem C3_concurrency_cap_and_priority_dispatch_witness :
    (run trace7).running.length ≤ MAX_CONCURRENT
    ∧ ((QueuedReq.mk 6 5 "g" 16 6).priority ≤ (QueuedReq.mk 6 5 "g" 16 6).priority
        ∧ ((QueuedReq.mk 6 5 "g" 16 6).priority = (QueuedReq.mk 6 5 "g" 16 6).priority
            → (QueuedReq.mk 6 5 "g" 16 6).arrival ≤ (QueuedReq.mk 6 5 "g" 16 6).arrival))
    ∧ ∃ t, (run (trace7 ++ [Ev.complete 0 (Outcome.ok (Val.num 1))])).running
        = removeRun (run trace7).running 0 ++ QueuedReq.mk 6 5 "g" 16 6 :: t :=
  ⟨(C3_concurrency_cap_and_priority_dispatch trace7).1,
   (C3_concurrency_cap_and_priority_dispatch trace7).2.1 (QueuedReq.mk 6 5 "g" 16 6) []
     (by decide) (QueuedReq.mk 6 5 "g" 16 6) (by decide),
   (C3_concurrency_cap_and_priority_dispatch trace7).2.2 0 (Outcome.ok (Val.num 1))
     (QueuedReq.mk 0 0 "a" 10 0) (QueuedReq.mk 6 5 "g" 16 6) [] (by decide) (by decide)⟩

theorem mem_surfacedAppend {c : Caller} {o : Outcome} {x : Caller × String}
    (h : x ∈ surfacedAppend c o) : ∃ n msg, x = (Caller.ui n, msg) := by
  cases c with
  | ui n =>
    cases o with
    | ok v => exact absurd h (List.not_mem_nil x)
    | err e =>
      simp only [surfacedAppend, List.mem_singleton] at h
      exact ⟨n, e, h⟩
  | sink t =>
    cases o with
    | ok v => exact absurd h (List.not_mem_nil x)
    | err e => exact absurd h (List.not_mem_nil x)

theorem mem_surfacedList {cs : List Caller} {o : Outcome} {x : Caller × String}
    (h : x ∈ surfacedList cs o) : ∃ n msg, x = (Caller.ui n, msg) := by
  induction cs with
  | nil => exact absurd h (List.not_mem_nil x)
  | cons c rest ih =>
    simp only [surfacedList, List.mem_append] at h
    rcases h with h | h
    · exact mem_surfacedAppend h
    · exact ih h

theorem mem_surfaced_flushAll :
    ∀ (bs : List BatchRequest) (s : OptState) (u : String) (resp : Nat → BatchResp)
      (i : Nat) (x : Caller × String),
      x ∈ (flushAll s bs u resp i).surfacedErrors →
      x ∈ s.surfacedErrors ∨ ∃ n msg, x = (Caller.ui n, msg) := by
  intro bs
  induction bs with
  | nil => exact fun s u resp i x h => Or.inl h
  | cons b rest ih =>
    intro s u resp i x h
    rcases ih (flushBatch s b u (resp i)) u resp (i + 1) x h with h' | h'
    · rw [flushBatch_eq] at h'
      have h'' : x ∈ s.surfacedErrors
          ++ surfacedList (waitersIn s.promises b.creator) (flushOutcome b (resp i)) := h'
      rcases List.mem_append.mp h'' with h'' | h''
      · exact Or.inl h''
      · exact Or.inr (mem_surfacedList h'')
    · exact Or.inr h'

theorem processQueue_surfaced (s : OptState) :
    (processQueue s).surfacedErrors = s.surfacedErrors := by
  by_cases hf : s.isProcessingQueue
  · simp [processQueue, hf]
  · exact (processQueue_spec s (by simpa using hf)).2.2.2.2.2.2.1

theorem step_surfaced {s : OptState} {e : Ev} {x : Caller × String}
    (hx : x ∈ (step s e).surfacedErrors) :
    x ∈ s.surfacedErrors ∨ ∃ n msg, x = (Caller.ui n, msg) := by
  cases e with
  | dedup c key fid =>
    cases halk : alookup s.pendingRequests key with
    | some pid =>
      rw [show step s (Ev.dedup c key fid) = dedupCall s (Caller.ui c) key fid from rfl,
        dedupCall_join (Caller.ui c) fid pid halk] at hx
      exact Or.inl hx
    | none =>
      rw [show step s (Ev.dedup c key fid) = dedupCall s (Caller.ui c) key fid from rfl,
        dedupCall_create (Caller.ui c) fid halk] at hx
      exact Or.inl hx
  | settle fid o =>
    cases hff : findFetch s.inFlight fid with
    | none =>
      rw [show step s (Ev.settle fid o) = dedupSettle s fid o from rfl] at hx
      rw [show dedupSettle s fid o = s from by simp [dedupSettle, hff]] at hx
      exact Or.inl hx
    | some f =>
      rw [show step s (Ev.settle fid o) = dedupSettle s fid o from rfl,
        dedupSettle_eq o hff] at hx
      have hx' : x ∈ s.surfacedErrors
          ++ (surfacedList (waitersIn s.promises f.pid) o ++ surfacedAppend f.owner o) := hx
      rcases List.mem_append.mp hx' with h | h
      · exact Or.inl h
      · rcases List.mem_append.mp h with h | h
        · exact Or.inr (mem_surfacedList h)
        · exact Or.inr (mem_surfacedAppend h)
  | batch c code userId => exact Or.inl hx
  | flush resp =>
    rw [show step s (Ev.flush resp) = processBatchedLikes s resp from rfl] at hx
    simp only [processBatchedLikes] at hx
    split at hx
    · exact Or.inl hx
    · rcases mem_surfaced_flushAll _ _ _ _ _ _ hx with h | h
      · exact Or.inl h
      · exact Or.inr h
  | queue c key priority fid =>
    rw [show step s (Ev.queue c key priority fid) = queueRequest s c key priority fid
        from rfl] at hx
    simp only [queueRequest] at hx
    rw [processQueue_surfaced] at hx
    exact Or.inl hx
  | complete a o =>
    rw [show step s (Ev.complete a o) = completeRequest s a o from rfl] at hx
    simp only [completeRequest] at hx
    split at hx
    · exact Or.inl hx
    · rename_i q hfr
      rw [processQueue_surfaced] at hx
      have hx' : x ∈ s.surfacedErrors
          ++ surfacedAppend (Caller.ui q.caller) o := hx
      rcases List.mem_append.mp hx' with h | h
      · exact Or.inl h
      · exact Or.inr (mem_surfacedAppend h)
  | callPrefetch key fid => exact Or.inl hx
  | firePrefetch tid =>
    rw [show step s (Ev.firePrefetch tid) = prefetchFire s tid from rfl] at hx
    simp only [prefetchFire] at hx
    split at hx
    · exact Or.inl hx
    · rename_i key fid heq
      set s₁ : OptState :=
        { s with prefetchTimers := removeTimer s.prefetchTimers tid } with hs₁
      cases halk : alookup s₁.pendingRequests key with
      | some pid =>
        rw [dedupCall_join (Caller.sink tid) fid pid halk] at hx
        exact Or.inl hx
      | none =>
        rw [dedupCall_create (Caller.sink tid) fid halk] at hx
        exact Or.inl hx
  | clearAll => exact Or.inl hx

theorem run_surfaced_ui (evts : List Ev) :
    ∀ x ∈ (run evts).surfacedErrors, ∃ n msg, x = (Caller.ui n, msg) := by
  have hgen : ∀ (l : List Ev) (s : OptState),
      (∀ x ∈ s.surfacedErrors, ∃ n msg, x = (Caller.ui n, msg)) →
      ∀ x ∈ (runFrom s l).surfacedErrors, ∃ n msg, x = (Caller.ui n, msg) := by
    intro l
    induction l with
    | nil => exact fun s hs => hs
    | cons e rest ih =>
      intro s hs x hx
      refine ih (step s e) ?_ x hx
      intro y hy
      rcases step_surfaced hy with h | h
      · exact hs y h
      · exact h
  exact hgen evts init (fun x hx => absurd hx (List.not_mem_nil x))

/-- C9: the prefetch callback wraps its deduplicated fetch in
`try { … } catch { /* Ignore prefetch errors */ }` (user.ts lines 263-267),
so no rejection is ever surfaced to a prefetch continuation: in every
reachable state the surfaced-rejection log contains only UI callers, never a
prefetch `sink`.  Concretely, a prefetch for key "k" whose fetch then fails
delivers the rejection to the swallowing callback and surfaces nothing. -/
theorem C9_prefetch_errors_swallowed :
    (∀ (evts : List Ev) (t : Nat) (e : String),
        (Caller.sink t, e) ∉ (run evts).surfacedErrors)
    ∧ deliveredToC (run [Ev.callPrefetch "k" 1, Ev.firePrefetch 0,
        Ev.settle 1 (Outcome.err "boom")]) (Caller.sink 0) = [Outcome.err "boom"]
    ∧ (run [Ev.callPrefetch "k" 1, Ev.firePrefetch 0,
        Ev.settle 1 (Outcome.err "boom")]).surfacedErrors = [] := by
  refine ⟨?_, by decide, by decide⟩
  intro evts t e hmem
  obtain ⟨n, msg, hx⟩ := run_surfaced_ui evts (Caller.sink t, e) hmem
  exact absurd (congrArg Prod.fst hx) (by simp)

/-- C9 witness: a concrete instance — the rejection of a fired prefetch's
fetch is not surfaced to the prefetch callback. -/
theorem C9_prefetch_errors_swallowed_witness :
    (Caller.sink 0, "boom") ∉ (run [Ev.callPrefetch "k" 1, Ev.firePrefetch 0,
      Ev.settle 1 (Outcome.err "boom")]).surfacedErrors :=
  C9_prefetch_errors_swallowed.1
    [Ev.callPrefetch "k" 1, Ev.firePrefetch 0, Ev.settle 1 (Outcome.err "boom")] 0 "boom"

/-! ### After a discard, no delivery ever reaches the discarded caller -/

theorem deliveredIn_eq_nil {l : List (Caller × Outcome)} {c : Caller}
    (h : ∀ p ∈ l, p.1 ≠ c) : deliveredIn l c = [] := by
  induction l with
  | nil => rfl
  | cons p rest ih =>
    obtain ⟨c', o⟩ := p
    have hne : c' ≠ c := h (c', o) (List.mem_cons_self _ _)
    simp only [deliveredIn, if_neg hne]
    exact ih fun q hq => h q (List.mem_cons_of_mem _ hq)

theorem mem_waitersIn_single {p : Nat} {ws : List Caller} {pid : Nat} {c : Caller}
    (h : c ∈ waitersIn [(p, ws)] pid) : c ∈ ws := by
  simp only [waitersIn] at h
  split at h
  · simpa using h
  · exact absurd h (List.not_mem_nil c)

theorem dedupCall_no_delivery {s : OptState} {c c' : Caller} {key : String} {fid : Nat}
    (hfresh : ∀ p ∈ s.promises, p.1 < s.nextPid)
    (hnd : ¬ Deliverable s c) (hne : c ≠ c') :
    deliveredToC (dedupCall s c' key fid) c = deliveredToC s c
    ∧ ¬ Deliverable (dedupCall s c' key fid) c := by
  cases halk : alookup s.pendingRequests key with
  | some pid =>
    rw [dedupCall_join c' fid pid halk]
    refine ⟨rfl, ?_⟩
    intro hdel
    apply hnd
    rcases hdel with ⟨f, hf, hf2⟩ | ⟨b, hb, hb2⟩ | h | h
    · rcases hf2 with hf2 | hf2
      · exact Or.inl ⟨f, hf, Or.inl hf2⟩
      · rcases mem_waitersIn_addWaiter hf2 with h' | h'
        · exact Or.inl ⟨f, hf, Or.inr h'⟩
        · exact absurd h' hne
    · rcases mem_waitersIn_addWaiter hb2 with h' | h'
      · exact Or.inr (Or.inl ⟨b, hb, h'⟩)
      · exact absurd h' hne
    · exact Or.inr (Or.inr (Or.inl h))
    · exact Or.inr (Or.inr (Or.inr h))
  | none =>
    rw [dedupCall_create c' fid halk]
    refine ⟨rfl, ?_⟩
    intro hdel
    apply hnd
    rcases hdel with ⟨f, hf, hf2⟩ | ⟨b, hb, hb2⟩ | h | h
    · have hsplit : ∀ pid, c ∈ waitersIn (s.promises ++ [(s.nextPid, [])]) pid →
          c ∈ waitersIn s.promises pid := by
        intro pid hpid
        rw [waitersIn_append] at hpid
        rcases List.mem_append.mp hpid with hpid | hpid
        · exact hpid
        · exact absurd (mem_waitersIn_single hpid) (List.not_mem_nil c)
      rcases List.mem_append.mp hf with hf | hf
      · rcases hf2 with hf2 | hf2
        · exact Or.inl ⟨f, hf, Or.inl hf2⟩
        · exact Or.inl ⟨f, hf, Or.inr (hsplit f.pid hf2)⟩
      · simp only [List.mem_singleton] at hf
        subst hf
        rcases hf2 with hf2 | hf2
        · exact absurd hf2 hne
        · exact absurd (hsplit _ hf2)
            (by rw [waitersIn_eq_nil_of_fresh
                (fun p hp => Nat.ne_of_lt (hfresh p hp))]
                exact List.not_mem_nil c)
    · have h2 : c ∈ waitersIn (s.promises ++ [(s.nextPid, [])]) b.creator := hb2
      rw [waitersIn_append] at h2
      rcases List.mem_append.mp h2 with h2 | h2
      · exact Or.inr (Or.inl ⟨b, hb, h2⟩)
      · exact absurd (mem_waitersIn_single h2) (List.not_mem_nil c)
    · exact Or.inr (Or.inr (Or.inl h))
    · exact Or.inr (Or.inr (Or.inr h))

theorem dedupSettle_no_delivery {s : OptState} {c : Caller} {fid : Nat} {o : Outcome}
    (hnd : ¬ Deliverable s c) :
    deliveredToC (dedupSettle s fid o) c = deliveredToC s c
    ∧ ¬ Deliverable (dedupSettle s fid o) c := by
  cases hff : findFetch s.inFlight fid with
  | none =>
    rw [show dedupSettle s fid o = s from by simp [dedupSettle, hff]]
    exact ⟨rfl, hnd⟩
  | some f =>
    have hfmem := findFetch_mem hff
    have hcown : c ≠ f.owner := fun hc => hnd (Or.inl ⟨f, hfmem, Or.inl hc⟩)
    have hcwait : c ∉ waitersIn s.promises f.pid :=
      fun hc => hnd (Or.inl ⟨f, hfmem, Or.inr hc⟩)
    rw [dedupSettle_eq o hff]
    constructor
    · show deliveredIn (s.delivered
          ++ ((waitersIn s.promises f.pid).map (fun w => (w, o)) ++ [(f.owner, o)])) c
        = deliveredIn s.delivered c
      rw [deliveredIn_append, deliveredIn_append]
      rw [deliveredIn_eq_nil (l := (waitersIn s.promises f.pid).map (fun w => (w, o)))
        (fun p hp => by
          obtain ⟨w, hw, hweq⟩ := List.mem_map.mp hp
          rw [← hweq]
          exact fun hc => hcwait (hc ▸ hw))]
      rw [deliveredIn_eq_nil (l := [(f.owner, o)])
        (fun p hp => by
          simp only [List.mem_singleton] at hp
          rw [hp]
          exact fun hc => hcown hc.symm)]
      simp
    · intro hdel
      apply hnd
      rcases hdel with ⟨g, hg, hg2⟩ | ⟨b, hb, hb2⟩ | h | h
      · have hg' := mem_removeFetch hg
        rcases hg2 with hg2 | hg2
        · exact Or.inl ⟨g, hg', Or.inl hg2⟩
        · exact Or.inl ⟨g, hg', Or.inr (mem_waitersIn_removePid hg2)⟩
      · exact Or.inr (Or.inl ⟨b, hb, mem_waitersIn_removePid hb2⟩)
      · exact Or.inr (Or.inr (Or.inl h))
      · exact Or.inr (Or.inr (Or.inr h))

theorem batchCall_no_delivery {s : OptState} {c : Caller} {c' : Nat} {code uid : String}
    (hfresh : ∀ p ∈ s.promises, p.1 < s.nextPid)
    (hnd : ¬ Deliverable s c) (hne : c ≠ Caller.ui c') :
    deliveredToC (batchCall s c' code uid) c = deliveredToC s c
    ∧ ¬ Deliverable (batchCall s c' code uid) c := by
  refine ⟨rfl, ?_⟩
  intro hdel
  have hsplit : ∀ pid, c ∈ waitersIn (s.promises ++ [(s.nextPid, [Caller.ui c'])]) pid →
      c ∈ waitersIn s.promises pid ∨ c = Caller.ui c' := by
    intro pid hpid
    rw [waitersIn_append] at hpid
    rcases List.mem_append.mp hpid with hpid | hpid
    · exact Or.inl hpid
    · have := mem_waitersIn_single hpid
      simp only [List.mem_singleton] at this
      exact Or.inr this
  apply hnd
  rcases hdel with ⟨f, hf, hf2⟩ | ⟨b, hb, hb2⟩ | h | h
  · rcases hf2 with hf2 | hf2
    · exact Or.inl ⟨f, hf, Or.inl hf2⟩
    · rcases hsplit f.pid hf2 with h' | h'
      · exact Or.inl ⟨f, hf, Or.inr h'⟩
      · exact absurd h' hne
  · rcases hsplit b.creator hb2 with h' | h'
    · rcases mem_creator_pushCode hb with hcr | hcr
      · obtain ⟨b₀, hb₀, hbeq⟩ := List.mem_map.mp hcr
        refine Or.inr (Or.inl ⟨b₀, hb₀, ?_⟩)
        show c ∈ waitersIn s.promises b₀.creator
        rw [hbeq]
        exact h'
      · rw [hcr] at h'
        rw [waitersIn_eq_nil_of_fresh (fun p hp => Nat.ne_of_lt (hfresh p hp))] at h'
        exact absurd h' (List.not_mem_nil c)
    · exact absurd h' hne
  · exact Or.inr (Or.inr (Or.inl h))
  · exact Or.inr (Or.inr (Or.inr h))

theorem flushAll_no_delivery :
    ∀ (bs : List BatchRequest) (s : OptState) (u : String) (resp : Nat → BatchResp)
      (i : Nat) (c : Caller),
      (∀ b ∈ bs, c ∉ waitersIn s.promises b.creator) →
      deliveredToC (flushAll s bs u resp i) c = deliveredToC s c
      ∧ (∀ pid, c ∈ waitersIn (flushAll s bs u resp i).promises pid →
          c ∈ waitersIn s.promises pid) := by
  intro bs
  induction bs with
  | nil => exact fun s u resp i c hw => ⟨rfl, fun pid h => h⟩
  | cons b rest ih =>
    intro s u resp i c hw
    have hwb := hw b (List.mem_cons_self _ _)
    have hw' : ∀ b' ∈ rest, c ∉ waitersIn (flushBatch s b u (resp i)).promises b'.creator := by
      intro b' hb' hc
      rw [flushBatch_eq] at hc
      exact hw b' (List.mem_cons_of_mem _ hb') (mem_waitersIn_removePid hc)
    obtain ⟨ih1, ih2⟩ := ih (flushBatch s b u (resp i)) u resp (i + 1) c hw'
    constructor
    · show deliveredToC (flushAll (flushBatch s b u (resp i)) rest u resp (i + 1)) c = _
      rw [ih1, flushBatch_eq]
      show deliveredIn (s.delivered
          ++ (waitersIn s.promises b.creator).map (fun w => (w, flushOutcome b (resp i)))) c
        = deliveredIn s.delivered c
      rw [deliveredIn_append]
      rw [deliveredIn_eq_nil
        (l := (waitersIn s.promises b.creator).map (fun w => (w, flushOutcome b (resp i))))
        (fun p hp => by
          obtain ⟨w, hw₀, hweq⟩ := List.mem_map.mp hp
          rw [← hweq]
          exact fun hc => hwb (hc ▸ hw₀))]
      simp
    · intro pid hc
      have h' := ih2 pid hc
      rw [flushBatch_eq] at h'
      exact mem_waitersIn_removePid h'

theorem processBatchedLikes_no_delivery {s : OptState} {c : Caller} {resp : Nat → BatchResp}
    (hnd : ¬ Deliverable s c) :
    deliveredToC (processBatchedLikes s resp) c = deliveredToC s c
    ∧ ¬ Deliverable (processBatchedLikes s resp) c := by
  simp only [processBatchedLikes]
  split
  · exact ⟨rfl, hnd⟩
  · rename_i u hu
    have hw : ∀ b ∈ s.likeBatchQueue,
        c ∉ waitersIn ({ s with likeBatchTimer := none, likeBatchQueue := [] }
          : OptState).promises b.creator := by
      intro b hb hc
      exact hnd (Or.inr (Or.inl ⟨b, hb, hc⟩))
    obtain ⟨h1, h2⟩ := flushAll_no_delivery s.likeBatchQueue
      { s with likeBatchTimer := none, likeBatchQueue := [] }
      u resp 0 c hw
    obtain ⟨u1, u2, u3, u4, u5, u6, u7, u8, u9, u10, u11, u12, u13⟩ :=
      flushAll_unchanged s.likeBatchQueue
        { s with likeBatchTimer := none, likeBatchQueue := [] }
        u resp 0
    refine ⟨h1, ?_⟩
    intro hdel
    apply hnd
    rcases hdel with ⟨f, hf, hf2⟩ | ⟨b, hb, hb2⟩ | h | h
    · rw [u10] at hf
      rcases hf2 with hf2 | hf2
      · exact Or.inl ⟨f, hf, Or.inl hf2⟩
      · exact Or.inl ⟨f, hf, Or.inr (h2 f.pid hf2)⟩
    · rw [u2] at hb
      exact absurd hb (List.not_mem_nil b)
    · obtain ⟨q, hq, hq2⟩ := h
      rw [u11] at hq
      exact Or.inr (Or.inr (Or.inl ⟨q, hq, hq2⟩))
    · obtain ⟨q, hq, hq2⟩ := h
      rw [u4] at hq
      exact Or.inr (Or.inr (Or.inr ⟨q, hq, hq2⟩))

theorem processQueue_no_delivery {s : OptState} {c : Caller}
    (hnd : ¬ Deliverable s c) :
    deliveredToC (processQueue s) c = deliveredToC s c
    ∧ ¬ Deliverable (processQueue s) c := by
  by_cases hf : s.isProcessingQueue
  · rw [show processQueue s = s from by simp [processQueue, hf]]
    exact ⟨rfl, hnd⟩
  · obtain ⟨p1, p2, p3, p4, p5, p6, p7, p8, p9, p10, p11, p12, p13, pqm,
      ⟨t, pt1, pt2, pt3⟩, pcap, ptie⟩ := processQueue_spec s (by simpa using hf)
    constructor
    · show deliveredIn (processQueue s).delivered c = deliveredIn s.delivered c
      rw [p6]
    · intro hdel
      apply hnd
      rcases hdel with ⟨f, hf', hf2⟩ | ⟨b, hb, hb2⟩ | h | h
      · rw [p5] at hf'
        rcases hf2 with hf2 | hf2
        · exact Or.inl ⟨f, hf', Or.inl hf2⟩
        · have hf2' : c ∈ waitersIn (processQueue s).promises f.pid := hf2
          rw [p4] at hf2'
          exact Or.inl ⟨f, hf', Or.inr hf2'⟩
      · rw [p2] at hb
        have hb2' : c ∈ waitersIn (processQueue s).promises b.creator := hb2
        rw [p4] at hb2'
        exact Or.inr (Or.inl ⟨b, hb, hb2'⟩)
      · obtain ⟨q, hq, hq2⟩ := h
        rw [pt1] at hq
        rcases List.mem_append.mp hq with hq | hq
        · exact Or.inr (Or.inr (Or.inl ⟨q, hq, hq2⟩))
        · exact Or.inr (Or.inr (Or.inr ⟨q, pt2 q hq, hq2⟩))
      · obtain ⟨q, hq, hq2⟩ := h
        exact Or.inr (Or.inr (Or.inr ⟨q, pqm q hq, hq2⟩))

theorem queueRequest_no_delivery {s : OptState} {c : Caller} {c' : Nat} {key : String}
    {priority : Int} {fid : Nat}
    (hnd : ¬ Deliverable s c) (hne : c ≠ Caller.ui c') :
    deliveredToC (queueRequest s c' key priority fid) c = deliveredToC s c
    ∧ ¬ Deliverable (queueRequest s c' key priority fid) c := by
  simp only [queueRequest]
  have hnd₁ : ¬ Deliverable
      ({ s with
          requestQueue := s.requestQueue ++ [⟨s.nextArrival, priority, key, fid, c'⟩],
          nextArrival := s.nextArrival + 1 } : OptState) c := by
    intro hdel
    rcases hdel with ⟨f, hf, hf2⟩ | ⟨b, hb, hb2⟩ | h | h
    · exact hnd (Or.inl ⟨f, hf, hf2⟩)
    · exact hnd (Or.inr (Or.inl ⟨b, hb, hb2⟩))
    · obtain ⟨q, hq, hq2⟩ := h
      exact hnd (Or.inr (Or.inr (Or.inl ⟨q, hq, hq2⟩)))
    · obtain ⟨q, hq, hq2⟩ := h
      have hq' : q ∈ s.requestQueue ++ [⟨s.nextArrival, priority, key, fid, c'⟩] := hq
      rcases List.mem_append.mp hq' with hq' | hq'
      · exact hnd (Or.inr (Or.inr (Or.inr ⟨q, hq', hq2⟩)))
      · simp only [List.mem_singleton] at hq'
        subst hq'
        exact hne hq2
  obtain ⟨h1, h2⟩ := processQueue_no_delivery hnd₁
  exact ⟨h1, h2⟩

theorem completeRequest_no_delivery {s : OptState} {c : Caller} {a : Nat} {o : Outcome}
    (hnd : ¬ Deliverable s c) :
    deliveredToC (completeRequest s a o) c = deliveredToC s c
    ∧ ¬ Deliverable (completeRequest s a o) c := by
  simp only [completeRequest]
  split
  · exact ⟨rfl, hnd⟩
  · rename_i q hfr
    have hqmem := findRun_mem hfr
    have hqc : c ≠ Caller.ui q.caller :=
      fun hc => hnd (Or.inr (Or.inr (Or.inl ⟨q, hqmem, hc⟩)))
    have hnd₂ : ¬ Deliverable (deliver
        { s with
          running := removeRun s.running a
          activeRequests := s.activeRequests - 1 }
        (Caller.ui q.caller) o) c := by
      intro hdel
      rcases hdel with ⟨f, hf, hf2⟩ | ⟨b, hb, hb2⟩ | h | h
      · exact hnd (Or.inl ⟨f, hf, hf2⟩)
      · exact hnd (Or.inr (Or.inl ⟨b, hb, hb2⟩))
      · obtain ⟨qq, hq, hq2⟩ := h
        have hq' : qq ∈ removeRun s.running a := hq
        exact hnd (Or.inr (Or.inr (Or.inl ⟨qq, mem_removeRun hq', hq2⟩)))
      · obtain ⟨qq, hq, hq2⟩ := h
        exact hnd (Or.inr (Or.inr (Or.inr ⟨qq, hq, hq2⟩)))
    obtain ⟨h1, h2⟩ := processQueue_no_delivery hnd₂
    refine ⟨?_, h2⟩
    rw [h1]
    show deliveredIn (s.delivered ++ [(Caller.ui q.caller, o)]) c
      = deliveredIn s.delivered c
    rw [deliveredIn_append]
    rw [deliveredIn_eq_nil (l := [(Caller.ui q.caller, o)]) (fun p hp => by
      simp only [List.mem_singleton] at hp
      rw [hp]
      exact fun hc => hqc hc.symm)]
    simp

theorem step_no_delivery {s : OptState} {c : Caller} (e : Ev)
    (hfresh : ∀ p ∈ s.promises, p.1 < s.nextPid)
    (hnd : ¬ Deliverable s c) (hev : c ∉ evCallers e) :
    deliveredToC (step s e) c = deliveredToC s c ∧ ¬ Deliverable (step s e) c := by
  cases e with
  | dedup c' key fid =>
    have hne : c ≠ Caller.ui c' := by
      intro hc
      exact hev (by rw [hc]; exact List.mem_cons_self _ _)
    exact dedupCall_no_delivery hfresh hnd hne
  | settle fid o => exact dedupSettle_no_delivery hnd
  | batch c' code uid =>
    have hne : c ≠ Caller.ui c' := by
      intro hc
      exact hev (by rw [hc]; exact List.mem_cons_self _ _)
    exact batchCall_no_delivery hfresh hnd hne
  | flush resp => exact processBatchedLikes_no_delivery hnd
  | queue c' key priority fid =>
    have hne : c ≠ Caller.ui c' := by
      intro hc
      exact hev (by rw [hc]; exact List.mem_cons_self _ _)
    exact queueRequest_no_delivery hnd hne
  | complete a o => exact completeRequest_no_delivery hnd
  | callPrefetch key fid =>
    refine ⟨rfl, ?_⟩
    intro hdel
    apply hnd
    rcases hdel with ⟨f, hf, hf2⟩ | ⟨b, hb, hb2⟩ | h | h
    · exact Or.inl ⟨f, hf, hf2⟩
    · exact Or.inr (Or.inl ⟨b, hb, hb2⟩)
    · obtain ⟨q, hq, hq2⟩ := h
      exact Or.inr (Or.inr (Or.inl ⟨q, hq, hq2⟩))
    · obtain ⟨q, hq, hq2⟩ := h
      exact Or.inr (Or.inr (Or.inr ⟨q, hq, hq2⟩))
  | firePrefetch tid =>
    have hne : c ≠ Caller.sink tid := by
      intro hc
      exact hev (by rw [hc]; exact List.mem_cons_self _ _)
    show deliveredToC (prefetchFire s tid) c = deliveredToC s c
      ∧ ¬ Deliverable (prefetchFire s tid) c
    simp only [prefetchFire]
    split
    · exact ⟨rfl, hnd⟩
    · rename_i key fid heq
      have hnd₁ : ¬ Deliverable
          ({ s with prefetchTimers := removeTimer s.prefetchTimers tid } : OptState) c := by
        intro hdel
        rcases hdel with ⟨f, hf, hf2⟩ | ⟨b, hb, hb2⟩ | h | h
        · exact hnd (Or.inl ⟨f, hf, hf2⟩)
        · exact hnd (Or.inr (Or.inl ⟨b, hb, hb2⟩))
        · obtain ⟨q, hq, hq2⟩ := h
          exact hnd (Or.inr (Or.inr (Or.inl ⟨q, hq, hq2⟩)))
        · obtain ⟨q, hq, hq2⟩ := h
          exact hnd (Or.inr (Or.inr (Or.inr ⟨q, hq, hq2⟩)))
      exact dedupCall_no_delivery hfresh hnd₁ hne
  | clearAll =>
    refine ⟨rfl, ?_⟩
    intro hdel
    apply hnd
    rcases hdel with ⟨f, hf, hf2⟩ | ⟨b, hb, hb2⟩ | h | h
    · exact Or.inl ⟨f, hf, hf2⟩
    · have hb' : b ∈ ([] : List BatchRequest) := hb
      exact absurd hb' (List.not_mem_nil b)
    · obtain ⟨q, hq, hq2⟩ := h
      exact Or.inr (Or.inr (Or.inl ⟨q, hq, hq2⟩))
    · obtain ⟨q, hq, hq2⟩ := h
      have hq' : q ∈ ([] : List QueuedReq) := hq
      exact absurd hq' (List.not_mem_nil q)

theorem no_delivery_runFrom {s : OptState} {c : Caller} (future : List Ev)
    (hinv : Inv s) (hnd : ¬ Deliverable s c)
    (hev : ∀ e ∈ future, c ∉ evCallers e) :
    deliveredToC (runFrom s future) c = deliveredToC s c := by
  induction future generalizing s with
  | nil => rfl
  | cons e rest ih =>
    obtain ⟨h1, h2⟩ := step_no_delivery e hinv.2.2.2.2.2.2.2 hnd
      (hev e (List.mem_cons_self _ _))
    have := ih (inv_step e hinv) h2 (fun e' he' => hev e' (List.mem_cons_of_mem _ he'))
    show deliveredToC (runFrom (step s e) rest) c = deliveredToC s c
    rw [this, h1]

/-- C6 counterexample: the claim says that after `Clear()` no caller whose
pending-request entry was discarded is ever subsequently resolved — the
eventual fetch result is discarded rather than delivered.  But `deduplicate`
resolves through the `resolve`/`reject` closures captured at lines 103-116,
not through the map, so the map wipe does not disconnect the waiters.
Concretely: caller 0 starts a fetch for key "k", caller 1 joins the pending
entry, `clear()` discards the entry (caller 1 undelivered at that point),
and when the fetch then resolves with 7, caller 1 IS resolved with 7. -/
theorem C6_counterexample_waiter_resolved_after_clear :
    deliveredToC (run [Ev.dedup 0 "k" 1, Ev.dedup 1 "k" 1, Ev.clearAll]) (Caller.ui 1) = []
    ∧ deliveredToC (run [Ev.dedup 0 "k" 1, Ev.dedup 1 "k" 1, Ev.clearAll,
        Ev.settle 1 (Outcome.ok (Val.num 7))]) (Caller.ui 1)
      = [Outcome.ok (Val.num 7)] := by
  exact ⟨by decide, by decide⟩

/-- C6 (amended): after `Clear()`, a caller whose batch group or queued item
was discarded is never subsequently settled by the coordinator — its
delivered log never grows over any future events — provided it holds no
other live handle at the clear and its one-shot identity does not recur in
later events.  Unlike the claim, this does NOT extend to pending-request
entries: a waiter of a discarded pending entry is still resolved when the
already-issued deduplicated fetch settles, since `deduplicate` delivers
through its captured closures rather than through the map (second
conjunct, for any key, fetcher and value). -/
theorem C6_amended_clear_never_settles_discarded (evts future : List Ev) (c : Caller)
    (_hdisc : DiscardedBy (run evts) c)
    (hnodel : ¬ Deliverable (step (run evts) Ev.clearAll) c)
    (hev : ∀ e ∈ future, c ∉ evCallers e) :
    deliveredToC (runFrom (step (run evts) Ev.clearAll) future) c
      = deliveredToC (run evts) c
    ∧ (∀ (key : String) (fid : Nat) (v : Val),
        deliveredToC (run [Ev.dedup 0 key fid, Ev.dedup 1 key fid, Ev.clearAll,
          Ev.settle fid (Outcome.ok v)]) (Caller.ui 1) = [Outcome.ok v]) := by
  constructor
  · have h1 := no_delivery_runFrom future (inv_step Ev.clearAll (inv_run evts)) hnodel hev
    rw [h1]
    rfl
  · intro key fid v
    have h1 : run [Ev.dedup 0 key fid, Ev.dedup 1 key fid, Ev.clearAll,
        Ev.settle fid (Outcome.ok v)]
        = dedupSettle (clear (step (step init (Ev.dedup 0 key fid))
            (Ev.dedup 1 key fid))) fid (Outcome.ok v) := rfl
    rw [h1, step_init_dedup,
      show step (dedupMid key fid 0) (Ev.dedup 1 key fid) = dedupMid key fid 1 from
        runFrom_joinCalls key fid 1]
    have hff : findFetch (clear (dedupMid key fid 1)).inFlight fid
        = some ⟨fid, key, 0, Caller.ui 0⟩ := by
      simp [clear, dedupMid, init, findFetch]
    rw [dedupSettle_eq (Outcome.ok v) hff]
    show deliveredIn ((clear (dedupMid key fid 1)).delivered
        ++ ((waitersIn (clear (dedupMid key fid 1)).promises 0).map
              (fun w => (w, Outcome.ok v)) ++ [(Caller.ui 0, Outcome.ok v)]))
        (Caller.ui 1) = [Outcome.ok v]
    have hw : waitersIn (clear (dedupMid key fid 1)).promises 0 = [Caller.ui 1] := by
      show waitersIn [(0, uiRange 1)] 0 = [Caller.ui 1]
      simp [waitersIn, uiRange]
    rw [hw]
    show deliveredIn ([] ++ ([(Caller.ui 1, Outcome.ok v)] ++ [(Caller.ui 0, Outcome.ok v)]))
      (Caller.ui 1) = [Outcome.ok v]
    simp [deliveredIn]

/-- C6 witness: a concrete instance — caller 5's batch group is discarded by
a `clear()`; over a later flush, nothing is ever delivered to caller 5. -/
theorem C6_amended_clear_never_settles_discarded_witness :
    deliveredToC (runFrom (step (run [Ev.batch 5 "A" "u"]) Ev.clearAll)
        [Ev.flush respABC]) (Caller.ui 5)
      = deliveredToC (run [Ev.batch 5 "A" "u"]) (Caller.ui 5) :=
  (C6_amended_clear_never_settles_discarded [Ev.batch 5 "A" "u"] [Ev.flush respABC]
    (Caller.ui 5)
    (Or.inl ⟨BatchRequest.mk ["A"] 0 "A", by decide, by decide⟩)
    (by
      intro hdel
      rcases hdel with ⟨f, hf, -⟩ | ⟨b, hb, -⟩ | ⟨q, hq, -⟩ | ⟨q, hq, -⟩
      · exact absurd hf (List.not_mem_nil f)
      · exact absurd hb (List.not_mem_nil b)
      · exact absurd hq (List.not_mem_nil q)
      · exact absurd hq (List.not_mem_nil q))
    (fun e he => by
      simp only [List.mem_singleton] at he
      rw [he]
      exact List.not_mem_nil _)).1

end JavPreview
